import Mathlib

/-!
Verification of the BigNum arbitrary-precision integer library
(bignum-cpp) against its natural-language specification.

The development shallowly embeds the C++ implementation in Lean:
a BigNum is a little-endian list of base-2^64 words plus a sign flag,
loops become fuel-indexed recursions, machine words are Nats reduced
modulo 2^64 exactly where the C++ code wraps, and every function that
can throw returns an Except value.  Definitions mirror the source file
src/bignum.cpp function by function; theorems at the end settle the
frozen claims C1 to C10.
-/

set_option maxRecDepth 10000

/-- Word base: the digit radix 2^64 used by the implementation. -/
def W : Nat := 2 ^ 64

/-- Failure kinds of the library (spec section 4.12), plus a marker for
fuel exhaustion, which models C++ nontermination and is distinct from
every real exception. -/
inductive BigErr where
  | divisionByZero
  | invalidModulus
  | notInvertible
  | invalidHex
  | overflowToInt64
  | montgomerySetup
  | barrettSetup
  | outOfFuel
deriving DecidableEq, Repr

/-- The BigNum data model: digit vector (little-endian, base 2^64) and
sign flag, mirroring the private fields of class BigNum. -/
structure BigNum where
  digits : List Nat
  negative : Bool
deriving DecidableEq, Repr

instance {ε α : Type} [DecidableEq ε] [DecidableEq α] : DecidableEq (Except ε α) :=
  fun a b =>
    match a, b with
    | .ok x, .ok y => if h : x = y then isTrue (by rw [h]) else isFalse (by simp [h])
    | .error x, .error y => if h : x = y then isTrue (by rw [h]) else isFalse (by simp [h])
    | .ok _, .error _ => isFalse (by simp)
    | .error _, .ok _ => isFalse (by simp)

namespace BigNum

/-- Magnitude denoted by a little-endian digit list. -/
def magVal : List Nat → Nat
  | [] => 0
  | d :: ds => d + W * magVal ds

/-- The signed integer a BigNum represents (spec section 3, invariant 4). -/
def toInt (a : BigNum) : Int :=
  if a.negative then -(magVal a.digits : Int) else (magVal a.digits : Int)

/-- Helper for removeLeadingZeros: the while-loop popping zero back words,
expressed on the reversed (most-significant-first) list.  It pops while
more than one word remains and the back word is zero. -/
def popzRev : List Nat → List Nat
  | [] => []
  | [x] => [x]
  | x :: y :: xs => if x = 0 then popzRev (y :: xs) else x :: y :: xs

/-- BigNum::removeLeadingZeros, as a constructor of the normalized value:
strips trailing zero words while size > 1, then clears the sign when the
single remaining word is zero. -/
def removeLeadingZeros (ds : List Nat) (neg : Bool) : BigNum :=
  let s := (popzRev ds.reverse).reverse
  if s = [0] then ⟨s, false⟩ else ⟨s, neg⟩

/-- The BigNum(vector, neg) constructor: stores and normalizes. -/
def ofVec (ds : List Nat) (neg : Bool) : BigNum := removeLeadingZeros ds neg

/-- The BigNum(int64_t) constructor. -/
def ofInt (v : Int) : BigNum := ⟨[v.natAbs], decide (v < 0)⟩

/-- BigNum::zero. -/
def zero : BigNum := ofInt 0

/-- BigNum::one. -/
def one : BigNum := ofInt 1

/-- BigNum::isZero: single digit equal to 0. -/
def isZero (a : BigNum) : Bool := decide (a.digits = [0])

/-- BigNum::isOne. -/
def isOne (a : BigNum) : Bool := !a.negative && decide (a.digits = [1])

/-- BigNum::isNegative. -/
def isNegative (a : BigNum) : Bool := a.negative && !isZero a

/-- BigNum::isEven: parity of digits[0]. -/
def isEven (a : BigNum) : Bool := decide ((a.digits.headD 0) % 2 = 0)

/-- BigNum::isOdd. -/
def isOdd (a : BigNum) : Bool := decide ((a.digits.headD 0) % 2 = 1)

/-- Most-significant-first lexicographic digit comparison of two
equal-length reversed digit lists (the loop in BigNum::compare). -/
def cmpMagRev : List Nat → List Nat → Int
  | x :: xs, y :: ys => if x ≠ y then (if x < y then -1 else 1) else cmpMagRev xs ys
  | _, _ => 0

/-- Magnitude comparison: digit-count first, then words from the most
significant end (shared by BigNum::compare and the inline comparison in
operator+). -/
def compareMag (a b : List Nat) : Int :=
  if a.length ≠ b.length then (if a.length < b.length then -1 else 1)
  else cmpMagRev a.reverse b.reverse

/-- BigNum::compare: sign-aware three-way comparison. -/
def compare (a b : BigNum) : Int :=
  if a.negative ≠ b.negative then (if a.negative then -1 else 1)
  else (if a.negative then -1 else 1) * compareMag a.digits b.digits

/-- Tail phase shared by the carry loops: add a pending carry into the
remaining cells, stopping as soon as it is zero (after which the loop
conditions of the source no longer fire and the cells are unchanged). -/
def carryInto : List Nat → Nat → List Nat
  | rs, 0 => rs
  | [], c => [c]
  | r :: rs, c => (r + c) % W :: carryInto rs ((r + c) / W)

/-- Word-level addition loop of BigNum::addUnsigned: runs while digits
remain or a carry is pending, emitting low 64 bits each step. -/
def addWords : List Nat → List Nat → Nat → List Nat
  | a :: as, b :: bs, c =>
    (a + b + c) % W :: addWords as bs ((a + b + c) / W)
  | a :: as, [], c => (a + c) % W :: addWords as [] ((a + c) / W)
  | [], bs, c => carryInto bs c

/-- BigNum::addUnsigned. -/
def addUnsigned (a b : BigNum) : BigNum := ofVec (addWords a.digits b.digits 0) false

/-- Word-level subtraction loop of BigNum::subtractUnsigned: walks the
first operand with a borrow.  Both the branch test bi + borrow and the
pushed digit ai - bi - borrow (the else branch adds UINT64_MAX + 1,
which is 0 in uint64) are computed in 64-bit arithmetic: when
bi = 2^64 - 1 and borrow = 1 the test sum wraps to 0, the no-borrow
branch is taken and the borrow chain is silently dropped, exactly as in
the source. -/
def subWords : List Nat → List Nat → Nat → List Nat
  | [], _, _ => []
  | a :: as, bs, brw =>
    let b := bs.headD 0
    if (b + brw) % W ≤ a then (a + 2 * W - b - brw) % W :: subWords as bs.tail 0
    else (a + 2 * W - b - brw) % W :: subWords as bs.tail 1

/-- BigNum::subtractUnsigned (precondition in the source: |a| >= |b|). -/
def subtractUnsigned (a b : BigNum) : BigNum := ofVec (subWords a.digits b.digits 0) false

/-- BigNum::operator+ : same signs add magnitudes and keep the sign;
different signs subtract the smaller magnitude from the larger and take
the sign of the larger operand.  Note the sign flag is assigned after
normalization, exactly as in the source. -/
def add (a b : BigNum) : BigNum :=
  if a.negative = b.negative then
    let r := addUnsigned a b
    ⟨r.digits, a.negative⟩
  else
    let ac := compareMag a.digits b.digits
    if 0 ≤ ac then
      let r := subtractUnsigned a b
      ⟨r.digits, a.negative⟩
    else
      let r := subtractUnsigned b a
      ⟨r.digits, b.negative⟩

/-- Unary BigNum::operator- : flips the sign unless the value is zero. -/
def negate (a : BigNum) : BigNum := if isZero a then a else ⟨a.digits, !a.negative⟩

/-- BigNum::operator- : a + (-b). -/
def sub (a b : BigNum) : BigNum := add a (negate b)

/-- Word loop of operator<< for a nonzero in-word bit shift: each step
emits the low 64 bits of (digit << bs) | carry.  A final cell holds the
leftover carry (the source writes it into the preallocated slot). -/
def shlWords (bs : Nat) : List Nat → Nat → List Nat
  | [], c => [c]
  | d :: ds, c => (d * 2 ^ bs + c) % W :: shlWords bs ds ((d * 2 ^ bs + c) / W)

/-- BigNum::operator<< : splits into word and bit shifts; prepends zero
words; sign is preserved; the constructor normalizes. -/
def shl (a : BigNum) (shift : Nat) : BigNum :=
  if shift = 0 then a
  else
    let ws := shift / 64
    let bs := shift % 64
    if bs = 0 then ofVec (List.replicate ws 0 ++ a.digits ++ [0]) a.negative
    else ofVec (List.replicate ws 0 ++ shlWords bs a.digits 0) a.negative

/-- Word loop of operator>> for a nonzero in-word bit shift, processing
from the most significant word down with a borrow of the low bs bits. -/
def shrWords (bs : Nat) : List Nat → Nat → List Nat
  | [], _ => []
  | d :: ds, c => (c * W + d) / 2 ^ bs :: shrWords bs ds (d % 2 ^ bs)

/-- BigNum::operator>> : drops low words, returns zero when the word
shift covers every digit, otherwise shifts bits downward; sign is
preserved. -/
def shr (a : BigNum) (shift : Nat) : BigNum :=
  if shift = 0 then a
  else
    let ws := shift / 64
    let bs := shift % 64
    if a.digits.length ≤ ws then zero
    else if bs = 0 then ofVec (a.digits.drop ws) a.negative
    else ofVec ((shrWords bs (a.digits.drop ws).reverse 0).reverse) a.negative

/-- Inner loop of BigNum::multiplySchoolbook for one row: adds
ai * b + carry into the result suffix, continuing past the end of b
while a carry remains.  The (unreachable on well-formed calls) cases
where the result cells run out append the pending value. -/
def mulRow (ai : Nat) : List Nat → List Nat → Nat → List Nat
  | b :: bs, r :: rs, c =>
    (r + ai * b + c) % W :: mulRow ai bs rs ((r + ai * b + c) / W)
  | b :: bs, [], c => (ai * b + c) % W :: mulRow ai bs [] ((ai * b + c) / W)
  | [], res, c => carryInto res c

/-- Outer loop of BigNum::multiplySchoolbook: row i accumulates into the
result suffix starting at position i. -/
def mulOuter : List Nat → List Nat → List Nat → List Nat
  | [], _, res => res
  | a :: as, bs, res =>
    match mulRow a bs res 0 with
    | [] => []
    | r :: rest => r :: mulOuter as bs rest

/-- BigNum::multiplySchoolbook: O(mn) product of the magnitudes into a
freshly zeroed result of length m + n; the result is non-negative. -/
def multiplySchoolbook (a b : BigNum) : BigNum :=
  ofVec (mulOuter a.digits b.digits (List.replicate (a.digits.length + b.digits.length) 0)) false

/-- The body of BigNum::multiplyKaratsuba after the base-size check:
pad to an even common length n, split at half = n/2, combine the three
recursive products by shifted additions.  The recursive dispatch
(multiplyUnsigned in the source) is passed as an argument. -/
def karatsubaBody (recur : BigNum → BigNum → BigNum) (a b : BigNum) : BigNum :=
  let m := max a.digits.length b.digits.length
  let n := if m % 2 ≠ 0 then m + 1 else m
  let ap := a.digits ++ List.replicate (n - a.digits.length) 0
  let bp := b.digits ++ List.replicate (n - b.digits.length) 0
  let half := n / 2
  let a0 := ofVec (ap.take half) false
  let a1 := ofVec (ap.drop half) false
  let b0 := ofVec (bp.take half) false
  let b1 := ofVec (bp.drop half) false
  let z0 := recur a0 b0
  let z2 := recur a1 b1
  let z1 := sub (sub (recur (add a1 a0) (add b1 b0)) z2) z0
  add (add z0 (shl z1 (half * 64))) (shl z2 (n * 64))

/-- Fuel-indexed mutual dispatch of multiplyUnsigned/multiplyKaratsuba:
sizes below the Karatsuba threshold 8 use schoolbook, larger sizes run
one Karatsuba step whose recursive calls consume one unit of fuel.  Any
fuel at least the larger digit count is sufficient (proved below). -/
def mulFuel : Nat → BigNum → BigNum → BigNum
  | 0, a, b => multiplySchoolbook a b
  | f + 1, a, b =>
    if 8 ≤ max a.digits.length b.digits.length then karatsubaBody (mulFuel f) a b
    else multiplySchoolbook a b

/-- BigNum::multiplyKaratsuba: base case below the threshold, otherwise
the split-and-recombine body with self-sufficient fuel. -/
def multiplyKaratsuba (a b : BigNum) : BigNum :=
  if 8 ≤ max a.digits.length b.digits.length then
    karatsubaBody (mulFuel (max a.digits.length b.digits.length)) a b
  else multiplySchoolbook a b

/-- BigNum::multiplyUnsigned: dispatch on the Karatsuba threshold. -/
def multiplyUnsigned (a b : BigNum) : BigNum :=
  if 8 ≤ max a.digits.length b.digits.length then multiplyKaratsuba a b
  else multiplySchoolbook a b

/-- BigNum::operator* : unsigned product, sign is the XOR of the operand
signs, then removeLeadingZeros. -/
def mul (a b : BigNum) : BigNum :=
  let r := multiplyUnsigned a b
  removeLeadingZeros r.digits (Bool.xor a.negative b.negative)

/-- The shift-up loop of BigNum::divideUnsigned: doubles temp until it
exceeds the (sign-aware!) comparison bound, counting the shifts.  Fuel
models the C++ while-loop, which does not terminate for some mixed-sign
operand pairs. -/
def divShiftLoop : Nat → BigNum → BigNum → Nat → Except BigErr (BigNum × Nat)
  | 0, _, _, _ => throw .outOfFuel
  | f + 1, temp, rem, s =>
    if compare temp rem ≤ 0 then divShiftLoop f (shl temp 1) rem (s + 1)
    else pure (temp, s)

/-- The bit-setting loop of BigNum::divideUnsigned: for i = shift down
to 0, subtract the shifted divisor whenever the remainder dominates and
set bit i of the quotient; halve temp each step.  Returns (quotient,
remainder). -/
def divBits : Nat → BigNum → BigNum → BigNum → BigNum × BigNum
  | 0, temp, rem, quot =>
    if 0 ≤ compare rem temp then (add quot (shl one 0), sub rem temp) else (quot, rem)
  | j + 1, temp, rem, quot =>
    if 0 ≤ compare rem temp then
      divBits j (shr temp 1) (sub rem temp) (add quot (shl one (j + 1)))
    else divBits j (shr temp 1) rem quot

/-- BigNum::divideUnsigned: throws on a zero divisor, short-circuits
when compare(divisor) < 0, otherwise runs binary long division.  The
internal fuel covers every terminating execution of the C++ loop. -/
def divideUnsigned (a b : BigNum) : Except BigErr (BigNum × BigNum) :=
  if isZero b then throw .divisionByZero
  else if compare a b < 0 then pure (ofInt 0, a)
  else do
    let p ← divShiftLoop (64 * (a.digits.length + 2) + 2) b a 0
    pure (divBits (p.2 - 1) (shr p.1 1) a (ofInt 0))

/-- BigNum::operator/ : quotient with sign = XOR of operand signs, then
removeLeadingZeros. -/
def div (a b : BigNum) : Except BigErr BigNum := do
  let r ← divideUnsigned a b
  pure (removeLeadingZeros r.1.digits (Bool.xor a.negative b.negative))

/-- BigNum::operator% : remainder with the dividend sign, then
removeLeadingZeros. -/
def mod (a b : BigNum) : Except BigErr BigNum := do
  let r ← divideUnsigned a b
  pure (removeLeadingZeros r.2.digits a.negative)

/-- Loop of BigNum::extendedGcd, carrying (old_r, r, old_s, s, old_t, t).
Fuel bounds the iteration count; any fuel above the value of r is
sufficient because the remainder strictly decreases. -/
def extGcdLoop : Nat → BigNum → BigNum → BigNum → BigNum → BigNum → BigNum →
    Except BigErr (BigNum × BigNum × BigNum)
  | f, or, r, os, s, ot, t =>
    if isZero r then pure (or, os, ot)
    else
      match f with
      | 0 => throw .outOfFuel
      | f + 1 => do
        let q ← div or r
        extGcdLoop f r (sub or (mul q r)) s (sub os (mul q s)) t (sub ot (mul q t))

/-- BigNum::extendedGcd: runs the loop on the absolute values, then
flips the Bezout coefficients to match the original signs. -/
def extendedGcd (a b : BigNum) : Except BigErr (BigNum × BigNum × BigNum) := do
  let or0 := if isNegative a then negate a else a
  let r0 := if isNegative b then negate b else b
  let res ← extGcdLoop (magVal r0.digits + 1) or0 r0 one zero zero one
  let s := if isNegative a then negate res.2.1 else res.2.1
  let t := if isNegative b then negate res.2.2 else res.2.2
  pure (res.1, s, t)

/-- BigNum::modInverse: extended gcd, NotInvertible unless the gcd is
one, then normalize the coefficient into the modulus range by one
conditional addition and a final remainder. -/
def modInverse (a n : BigNum) : Except BigErr BigNum := do
  let res ← extendedGcd a n
  if !(isOne res.1) then throw .notInvertible
  else
    let inv := res.2.1
    let inv := if isNegative inv then add inv n else inv
    mod inv n

/-- BigNum::gcd: Euclid on the absolute values. -/
def gcdLoop : Nat → BigNum → BigNum → Except BigErr BigNum
  | f, a, b =>
    if isZero b then pure a
    else
      match f with
      | 0 => throw .outOfFuel
      | f + 1 => do
        let r ← mod a b
        gcdLoop f b r

/-- BigNum::gcd entry point. -/
def gcdB (a b : BigNum) : Except BigErr BigNum :=
  let a0 := if a.negative then negate a else a
  let b0 := if b.negative then negate b else b
  gcdLoop (magVal b0.digits + 1) a0 b0

/-- The loop body count of BigNum::bitLength for the top word: number of
right shifts until the word is zero (a uint64 needs at most 64). -/
def wordBits : Nat → Nat → Nat
  | 0, _ => 0
  | f + 1, n => if n = 0 then 0 else wordBits f (n / 2) + 1

/-- BigNum::bitLength. -/
def bitLength (a : BigNum) : Nat :=
  if isZero a then 0
  else (a.digits.length - 1) * 64 + wordBits 64 (a.digits.getLastD 0)

/-- BigNum::byteLength. -/
def byteLength (a : BigNum) : Nat := (bitLength a + 7) / 8

/-- BigNum::operator& : word-wise AND of the magnitudes padded to the
longer length; the result is non-negative. -/
def andB (a b : BigNum) : BigNum :=
  let n := max a.digits.length b.digits.length
  ofVec ((List.range n).map fun i => Nat.land (a.digits.getD i 0) (b.digits.getD i 0)) false

/-- MontgomeryContext: modulus, R = 2^(64 k), R^(-1) mod N, and
N-prime = (-N^(-1)) mod R. -/
structure MontgomeryContext where
  modulus : BigNum
  r : BigNum
  r_inv : BigNum
  n_prime : BigNum
  k : Nat
deriving Repr

/-- The MontgomeryContext constructor: rejects zero or even moduli, then
derives R^(-1) and N-prime by two extended-gcd computations. -/
def MontgomeryContext.make (m : BigNum) : Except BigErr MontgomeryContext := do
  if isZero m || isEven m then throw .montgomerySetup
  let k := m.digits.length
  let r := shl one (k * 64)
  let g1 ← extendedGcd r m
  if !(isOne g1.1) then throw .montgomerySetup
  let ri0 := g1.2.1
  let ri := if isNegative ri0 then add ri0 m else ri0
  let g2 ← extendedGcd m r
  if !(isOne g2.1) then throw .montgomerySetup
  let np0 := negate g2.2.1
  let np := if isNegative np0 then add np0 r else np0
  pure ⟨m, r, ri, np, k⟩

/-- The inner j-loop of MontgomeryContext::reduce: adds m * modulus into
the accumulator starting at position p, returning the final carry. -/
def ciosAddLoop : List Nat → Nat → Nat → List Nat → Nat → List Nat × Nat
  | t, _, _, [], c => (t, c)
  | t, p, m, d :: ds, c =>
    let prod := t.getD p 0 + m * d + c
    ciosAddLoop (t.set p (prod % W)) (p + 1) m ds (prod / W)

/-- The carry-propagation loop of MontgomeryContext::reduce: adds the
pending carry into successive cells while any remain. -/
def ciosCarry : Nat → List Nat → Nat → Nat → List Nat
  | 0, t, _, _ => t
  | f + 1, t, p, c =>
    if p < t.length ∧ c ≠ 0 then
      ciosCarry f (t.set p ((t.getD p 0 + c) % W)) (p + 1) ((t.getD p 0 + c) / W)
    else t

/-- The outer i-loop of MontgomeryContext::reduce (CIOS):
m = t[i] * n_prime[0] mod 2^64, then add m * modulus at offset i and
propagate the carry. -/
def ciosLoop (mdig : List Nat) (np0 : Nat) : Nat → Nat → List Nat → List Nat
  | _, 0, t => t
  | i, cnt + 1, t =>
    let m := (t.getD i 0 * np0) % W
    let st := ciosAddLoop t i m mdig 0
    let t2 := ciosCarry (t.length + 1) st.1 (i + mdig.length) st.2
    ciosLoop mdig np0 (i + 1) cnt t2

/-- MontgomeryContext::reduce: CIOS reduction of an accumulator of
length 2k + 1 (input digits beyond 2k words are dropped, and the sign of
the input is ignored, as in the source), with one final conditional
subtraction. -/
def MontgomeryContext.reduce (ctx : MontgomeryContext) (a : BigNum) : BigNum :=
  let t0 := (a.digits.take (2 * ctx.k)) ++
    List.replicate (2 * ctx.k + 1 - min a.digits.length (2 * ctx.k)) 0
  let t := ciosLoop ctx.modulus.digits (ctx.n_prime.digits.headD 0) 0 ctx.k t0
  let res := ofVec ((t.drop ctx.k).take ctx.k) false
  if 0 ≤ compare res ctx.modulus then sub res ctx.modulus else res

/-- MontgomeryContext::multiply: reduce(a * b). -/
def MontgomeryContext.montMul (ctx : MontgomeryContext) (a b : BigNum) : BigNum :=
  ctx.reduce (mul a b)

/-- MontgomeryContext::toMontgomery: (a * R) mod N. -/
def MontgomeryContext.toMontgomery (ctx : MontgomeryContext) (a : BigNum) :
    Except BigErr BigNum :=
  mod (mul a ctx.r) ctx.modulus

/-- The Montgomery-form square-and-multiply loop of
BigNum::modPowMontgomery. -/
def montLoop (ctx : MontgomeryContext) : Nat → BigNum → BigNum → BigNum →
    Except BigErr BigNum
  | f, e, res, base =>
    if isZero e then pure res
    else
      match f with
      | 0 => throw .outOfFuel
      | f + 1 =>
        let res2 := if isOdd e then ctx.montMul res base else res
        montLoop ctx f (shr e 1) res2 (ctx.montMul base base)

/-- BarrettContext: modulus, k = bitLength(N), mu = floor(2^(2k) / N). -/
structure BarrettContext where
  modulus : BigNum
  mu : BigNum
  k : Nat
deriving Repr

/-- The BarrettContext constructor. -/
def BarrettContext.make (m : BigNum) : Except BigErr BarrettContext := do
  if isZero m then throw .barrettSetup
  let k := bitLength m
  let mu ← div (shl one (2 * k)) m
  pure ⟨m, mu, k⟩

/-- The final subtraction loop of BarrettContext::reduce. -/
def barrettFinal : Nat → BigNum → BigNum → Except BigErr BigNum
  | 0, _, _ => throw .outOfFuel
  | f + 1, r, n =>
    if 0 ≤ compare r n then barrettFinal f (sub r n) n else pure r

/-- BarrettContext::reduce: quotient estimation through mu, masked
subtraction modulo 2^(k+1), then bounded corrective subtractions. -/
def BarrettContext.reduce (ctx : BarrettContext) (a : BigNum) : Except BigErr BigNum :=
  if compare a ctx.modulus < 0 then pure a
  else if bitLength a ≤ ctx.k then mod a ctx.modulus
  else
    let q1 := shr a (ctx.k - 1)
    let q2 := mul q1 ctx.mu
    let q3 := shr q2 (ctx.k + 1)
    let rmask := sub (shl one (ctx.k + 1)) one
    let r1 := andB a rmask
    let r2 := andB (mul q3 ctx.modulus) rmask
    let r := sub r1 r2
    let r2n := if isNegative r then add r (shl one (ctx.k + 1)) else r
    barrettFinal (magVal r2n.digits + 1) r2n ctx.modulus

/-- The square-and-multiply loop of the plain path of
BigNum::modPowBinary, reducing with operator% after each product. -/
def plainLoop (n : BigNum) : Nat → BigNum → BigNum → BigNum → Except BigErr BigNum
  | f, e, res, base =>
    if isZero e then pure res
    else
      match f with
      | 0 => throw .outOfFuel
      | f + 1 => do
        let res2 ← if isOdd e then mod (mul res base) n else pure res
        let base2 ← mod (mul base base) n
        plainLoop n f (shr e 1) res2 base2

/-- The square-and-multiply loop of the Barrett path of
BigNum::modPowBinary. -/
def barrettLoop (ctx : BarrettContext) : Nat → BigNum → BigNum → BigNum →
    Except BigErr BigNum
  | f, e, res, base =>
    if isZero e then pure res
    else
      match f with
      | 0 => throw .outOfFuel
      | f + 1 => do
        let res2 ← if isOdd e then ctx.reduce (mul res base) else pure res
        let base2 ← ctx.reduce (mul base base)
        barrettLoop ctx f (shr e 1) res2 base2

/-- BigNum::modPowBinary: reduce the base once, then use the Barrett
path for moduli of at least 8 words (falling through to the plain path
when the Barrett setup fails), else the plain path. -/
def modPowBinary (a e n : BigNum) : Except BigErr BigNum := do
  let base ← mod a n
  if 8 ≤ n.digits.length then
    match BarrettContext.make n with
    | .error err =>
      if err = .outOfFuel then throw .outOfFuel
      else plainLoop n (magVal e.digits + 1) e one base
    | .ok ctx => barrettLoop ctx (magVal e.digits + 1) e one base
  else plainLoop n (magVal e.digits + 1) e one base

/-- The body of the try block in BigNum::modPowMontgomery. -/
def montBody (a e n : BigNum) : Except BigErr BigNum := do
  let ctx ← MontgomeryContext.make n
  let am ← mod a n
  let bm ← ctx.toMontgomery am
  let rm ← ctx.toMontgomery one
  let res ← montLoop ctx (magVal e.digits + 1) e rm bm
  pure (ctx.reduce res)

/-- BigNum::modPowMontgomery: run the Montgomery computation and fall
back to modPowBinary on any caught exception.  Fuel exhaustion models a
C++ hang, which no catch block can observe, so it propagates. -/
def modPowMontgomery (a e n : BigNum) : Except BigErr BigNum :=
  match montBody a e n with
  | .ok v => pure v
  | .error err =>
    if err = .outOfFuel then throw .outOfFuel else modPowBinary a e n

/-- BigNum::modPow: InvalidModulus on a zero modulus, 1 on a zero
exponent, 0 on a unit modulus, then dispatch on the Montgomery
threshold (4 words, odd) and otherwise the binary path. -/
def modPow (a e n : BigNum) : Except BigErr BigNum :=
  if isZero n then throw .invalidModulus
  else if isZero e then pure one
  else if isOne n then pure zero
  else if 4 ≤ n.digits.length ∧ isOdd n then modPowMontgomery a e n
  else modPowBinary a e n

/-- One 16-character chunk of BigNum::fromHexString: shift in each hex
digit, throwing InvalidHex at the first non-hex character. -/
def parseHexChunk : List Char → Nat → Except BigErr Nat
  | [], v => pure v
  | c :: cs, v =>
    let v2 := (v * 16) % W
    if '0' ≤ c ∧ c ≤ '9' then parseHexChunk cs (v2 + (c.toNat - '0'.toNat))
    else if 'a' ≤ c ∧ c ≤ 'f' then parseHexChunk cs (v2 + (c.toNat - 'a'.toNat + 10))
    else if 'A' ≤ c ∧ c ≤ 'F' then parseHexChunk cs (v2 + (c.toNat - 'A'.toNat + 10))
    else throw .invalidHex

/-- The chunking loop of BigNum::fromHexString: consume the string from
the right in 16-character chunks, one 64-bit word each, placed
little-endian. -/
def hexChunksF : Nat → List Char → Except BigErr (List Nat)
  | _, [] => pure []
  | 0, _ :: _ => pure []
  | f + 1, c :: cs => do
    let cut := (c :: cs).length - 16
    let w ← parseHexChunk ((c :: cs).drop cut) 0
    let rest ← hexChunksF f ((c :: cs).take cut)
    pure (w :: rest)

/-- Entry point of the chunk loop; the fuel (one unit per chunk, each of
which consumes at least one character) never runs out. -/
def hexChunks (s : List Char) : Except BigErr (List Nat) := hexChunksF s.length s

/-- BigNum::fromHexString: empty input gives zero; strip an optional
leading minus sign, then an optional lowercase 0x prefix (the source
compares against the two-character string 0x only); an empty remainder
gives zero; otherwise parse right-to-left in 16-character chunks. -/
def fromHexString (s : List Char) : Except BigErr BigNum :=
  if s = [] then pure (ofInt 0)
  else
    let p := if s.headD ' ' = '-' then (true, s.drop 1) else (false, s)
    let s2 := if 2 ≤ p.2.length ∧ p.2.take 2 = ['0', 'x'] then p.2.drop 2 else p.2
    if s2 = [] then pure (ofInt 0)
    else do
      let ds ← hexChunks s2
      pure (ofVec ds p.1)

/-- BigNum::toInt64: overflow for more than one word; zero maps to 0; a
positive word must not exceed INT64_MAX; a negative magnitude may reach
2^63, which maps to the minimum int64 value. -/
def toInt64 (a : BigNum) : Except BigErr Int :=
  if 1 < a.digits.length then throw .overflowToInt64
  else if isZero a then pure 0
  else
    let value := a.digits.headD 0
    if !(isNegative a) then
      if 2 ^ 63 - 1 < value then throw .overflowToInt64 else pure (value : Int)
    else
      if 2 ^ 63 < value then throw .overflowToInt64 else pure (-(value : Int))

/-- BigNum::toByteArray: big-endian magnitude bytes, byteLength() long;
byte i from the right is bits 8i..8i+7 of the digit vector. -/
def toByteArray (a : BigNum) : List Nat :=
  let bl := byteLength a
  (List.range bl).map fun p =>
    let i := bl - 1 - p
    (a.digits.getD (i / 8) 0 / 2 ^ (8 * (i % 8))) % 256

/-- BigNum::fromByteArray: empty input gives canonical zero; otherwise
pack the big-endian bytes into ceil(len/8) little-endian words. -/
def fromByteArray (bytes : List Nat) : BigNum :=
  if bytes = [] then zero
  else
    let nd := (bytes.length + 7) / 8
    let rev := bytes.reverse
    let ds := (List.range nd).map fun d =>
      ((List.range 8).map fun t => rev.getD (8 * d + t) 0 * 2 ^ (8 * t)).sum
    ofVec ds false

/-- Specification-side predicate for the hex alphabet of the
documented format (digits, lowercase and uppercase letters). -/
def specHexDigit (c : Char) : Bool :=
  (decide ('0' ≤ c) && decide (c ≤ '9')) || (decide ('a' ≤ c) && decide (c ≤ 'f')) ||
  (decide ('A' ≤ c) && decide (c ≤ 'F'))

/-- Specification-side acceptance predicate for fromHexString, written
from the documented format amended to what the source implements: an
optional leading minus, an optional lowercase 0x prefix, then zero or
more hex digits (so the empty string, a bare minus and a bare prefix
are accepted and denote zero). -/
def acceptedHex (s : List Char) : Bool :=
  if s = [] then true
  else
    let p := if s.headD ' ' = '-' then s.drop 1 else s
    let s2 := if 2 ≤ p.length ∧ p.take 2 = ['0', 'x'] then p.drop 2 else p
    s2.all specHexDigit

end BigNum

/-! ## Well-formedness predicates and basic value lemmas -/

namespace BigNum

/-- Every word of the digit list fits a 64-bit machine word. -/
def BoundedL (ds : List Nat) : Prop := ∀ d ∈ ds, d < W

/-- Magnitude-canonical: nonempty, word-bounded, and no leading-zero
word (spec section 3, invariants 1 and 2). -/
def MCanon (a : BigNum) : Prop :=
  a.digits ≠ [] ∧ BoundedL a.digits ∧ (a.digits.length = 1 ∨ a.digits.getLastD 0 ≠ 0)

/-- Fully canonical: magnitude-canonical and no negative zero
(spec section 3, invariant 3). -/
def Canon (a : BigNum) : Prop := MCanon a ∧ (magVal a.digits = 0 → a.negative = false)

instance (ds : List Nat) : Decidable (BoundedL ds) := List.decidableBAll _ ds

instance (a : BigNum) : Decidable (MCanon a) := by unfold MCanon; infer_instance

instance (a : BigNum) : Decidable (Canon a) := by unfold Canon; infer_instance

theorem W_pos : 0 < W := by norm_num [W]

theorem one_lt_W : 1 < W := by norm_num [W]

theorem magVal_nil : magVal [] = 0 := rfl

theorem magVal_cons (d : Nat) (ds : List Nat) : magVal (d :: ds) = d + W * magVal ds := rfl

theorem magVal_append (xs ys : List Nat) :
    magVal (xs ++ ys) = magVal xs + W ^ xs.length * magVal ys := by
  induction xs with
  | nil => simp [magVal]
  | cons d ds ih => simp [magVal_cons, ih, pow_succ]; ring

theorem magVal_replicate_zero (n : Nat) : magVal (List.replicate n 0) = 0 := by
  induction n with
  | zero => rfl
  | succ n ih => simp [List.replicate_succ, magVal_cons, ih]

theorem magVal_lt (ds : List Nat) (h : BoundedL ds) : magVal ds < W ^ ds.length := by
  induction ds with
  | nil => simp [magVal, W]
  | cons d ds ih =>
    have hd : d < W := h d (by simp)
    have ht : magVal ds < W ^ ds.length := ih (fun x hx => h x (by simp [hx]))
    have : d + W * magVal ds < W + W * magVal ds := by omega
    calc magVal (d :: ds) = d + W * magVal ds := rfl
      _ < W + W * magVal ds := this
      _ = W * (magVal ds + 1) := by ring
      _ ≤ W * W ^ ds.length := by
          exact Nat.mul_le_mul_left _ (by omega)
      _ = W ^ (d :: ds).length := by simp [List.length_cons, pow_succ]; ring

theorem magVal_eq_zero_iff (ds : List Nat) :
    magVal ds = 0 ↔ ∀ d ∈ ds, d = 0 := by
  induction ds with
  | nil => simp [magVal]
  | cons d ds ih =>
    simp only [magVal_cons, List.mem_cons]
    constructor
    · intro h
      have hd : d = 0 := by omega
      have hds : magVal ds = 0 := by
        have := Nat.eq_zero_of_add_eq_zero_left h
        have hW : 0 < W := W_pos
        rcases Nat.mul_eq_zero.mp this with h1 | h2
        · omega
        · exact h2
      intro x hx
      rcases hx with rfl | hx
      · exact hd
      · exact (ih.mp hds) x hx
    · intro h
      have hd : d = 0 := h d (Or.inl rfl)
      have : magVal ds = 0 := ih.mpr fun x hx => h x (Or.inr hx)
      simp [hd, this]

theorem magVal_getLast_le (ds : List Nat) (h : ds ≠ []) :
    ds.getLastD 0 * W ^ (ds.length - 1) ≤ magVal ds := by
  have hsplit : ds.dropLast ++ [ds.getLast h] = ds := List.dropLast_append_getLast h
  have hlen : ds.dropLast.length = ds.length - 1 := List.length_dropLast ds
  have hlast : ds.getLastD 0 = ds.getLast h := by
    rw [List.getLastD_eq_getLast?, List.getLast?_eq_getLast ds h]
    rfl
  calc ds.getLastD 0 * W ^ (ds.length - 1)
      = ds.getLast h * W ^ ds.dropLast.length := by rw [hlast, hlen]
    _ ≤ magVal ds.dropLast + W ^ ds.dropLast.length * (ds.getLast h + W * 0) := by
        simp [Nat.mul_comm]
    _ = magVal (ds.dropLast ++ [ds.getLast h]) := by
        rw [magVal_append]; rfl
    _ = magVal ds := by rw [hsplit]

end BigNum

/-! ## Normalization lemmas -/

namespace BigNum

theorem getLastD_irrel (l : List Nat) (h : l ≠ []) (a b : Nat) :
    l.getLastD a = l.getLastD b := by
  rw [List.getLastD_eq_getLast?, List.getLastD_eq_getLast?,
    List.getLast?_eq_getLast l h]
  rfl

theorem getLastD_reverse (l : List Nat) (d : Nat) :
    l.reverse.getLastD d = l.headD d := by
  rw [List.getLastD_eq_getLast?, List.getLast?_reverse, List.headD_eq_head?]

theorem popzRev_magVal (rs : List Nat) :
    magVal ((popzRev rs).reverse) = magVal rs.reverse := by
  induction rs with
  | nil => rfl
  | cons x xs ih =>
    cases xs with
    | nil => rfl
    | cons y ys =>
      by_cases hx : x = 0
      · subst hx
        rw [show popzRev (0 :: y :: ys) = popzRev (y :: ys) from by simp [popzRev]]
        rw [ih]
        rw [show (0 :: y :: ys).reverse = (y :: ys).reverse ++ [0] from by simp]
        rw [magVal_append]
        simp [magVal]
      · rw [show popzRev (x :: y :: ys) = x :: y :: ys from by simp [popzRev, hx]]

theorem popzRev_subset (rs : List Nat) : ∀ x ∈ popzRev rs, x ∈ rs := by
  induction rs with
  | nil => simp [popzRev]
  | cons a xs ih =>
    cases xs with
    | nil => simp [popzRev]
    | cons y ys =>
      by_cases ha : a = 0
      · subst ha
        rw [show popzRev (0 :: y :: ys) = popzRev (y :: ys) from by simp [popzRev]]
        intro x hx
        exact List.mem_cons_of_mem _ (ih x hx)
      · rw [show popzRev (a :: y :: ys) = a :: y :: ys from by simp [popzRev, ha]]
        intro x hx
        exact hx

theorem popzRev_ne_nil (rs : List Nat) (h : rs ≠ []) : popzRev rs ≠ [] := by
  induction rs with
  | nil => exact absurd rfl h
  | cons a xs ih =>
    cases xs with
    | nil => simp [popzRev]
    | cons y ys =>
      by_cases ha : a = 0
      · subst ha
        rw [show popzRev (0 :: y :: ys) = popzRev (y :: ys) from by simp [popzRev]]
        exact ih (by simp)
      · rw [show popzRev (a :: y :: ys) = a :: y :: ys from by simp [popzRev, ha]]
        simp

theorem popzRev_shape (rs : List Nat) (h : rs ≠ []) :
    (popzRev rs).length = 1 ∨ (popzRev rs).headD 0 ≠ 0 := by
  induction rs with
  | nil => exact absurd rfl h
  | cons a xs ih =>
    cases xs with
    | nil => left; rfl
    | cons y ys =>
      by_cases ha : a = 0
      · subst ha
        rw [show popzRev (0 :: y :: ys) = popzRev (y :: ys) from by simp [popzRev]]
        exact ih (by simp)
      · right
        rw [show popzRev (a :: y :: ys) = a :: y :: ys from by simp [popzRev, ha]]
        simpa using ha

theorem rlz_digits (ds : List Nat) (neg : Bool) :
    (removeLeadingZeros ds neg).digits = (popzRev ds.reverse).reverse := by
  unfold removeLeadingZeros
  by_cases hs : (popzRev ds.reverse).reverse = [0] <;> simp [hs]

theorem rlz_digits_magVal (ds : List Nat) (neg : Bool) :
    magVal (removeLeadingZeros ds neg).digits = magVal ds := by
  rw [rlz_digits]
  have h := popzRev_magVal ds.reverse
  rwa [List.reverse_reverse] at h

theorem rlz_mcanon (ds : List Nat) (neg : Bool) (h : ds ≠ []) (hb : BoundedL ds) :
    MCanon (removeLeadingZeros ds neg) := by
  have hrev : ds.reverse ≠ [] := by simpa using h
  have hne : (popzRev ds.reverse).reverse ≠ [] := by
    simpa using popzRev_ne_nil ds.reverse hrev
  have hbnd : BoundedL (popzRev ds.reverse).reverse := by
    intro x hx
    have hx2 : x ∈ popzRev ds.reverse := by simpa using hx
    have hx3 : x ∈ ds.reverse := popzRev_subset _ x hx2
    exact hb x (by simpa using hx3)
  have hshape : ((popzRev ds.reverse).reverse).length = 1 ∨
      ((popzRev ds.reverse).reverse).getLastD 0 ≠ 0 := by
    rcases popzRev_shape ds.reverse hrev with h1 | h2
    · left; simpa using h1
    · right; rw [getLastD_reverse]; exact h2
  unfold MCanon
  rw [rlz_digits]
  exact ⟨hne, hbnd, hshape⟩

theorem getLastD_mem (l : List Nat) (h : l ≠ []) : l.getLastD 0 ∈ l := by
  have : l.getLastD 0 = l.getLast h := by
    rw [List.getLastD_eq_getLast?, List.getLast?_eq_getLast l h]
    rfl
  rw [this]
  exact List.getLast_mem h

theorem mcanon_digits_zero (a : BigNum) (h : MCanon a) (hz : magVal a.digits = 0) :
    a.digits = [0] := by
  obtain ⟨hne, _, hshape⟩ := h
  have hall := (magVal_eq_zero_iff a.digits).mp hz
  rcases hshape with h1 | h2
  · cases hd : a.digits with
    | nil => exact absurd hd hne
    | cons x xs =>
      have hx : x = 0 := hall x (by simp [hd])
      have hxs : xs = [] := by
        have := h1
        rw [hd] at this
        simpa using this
      simp [hd, hx, hxs]
  · exact absurd (hall _ (getLastD_mem a.digits hne)) h2

theorem rlz_negative_of_zero (ds : List Nat) (neg : Bool)
    (h : ds ≠ []) (hb : BoundedL ds)
    (hz : magVal (removeLeadingZeros ds neg).digits = 0) :
    (removeLeadingZeros ds neg).negative = false := by
  have hd : (removeLeadingZeros ds neg).digits = [0] :=
    mcanon_digits_zero _ (rlz_mcanon ds neg h hb) hz
  rw [rlz_digits] at hd
  unfold removeLeadingZeros
  simp [hd]

theorem rlz_canon (ds : List Nat) (neg : Bool) (h : ds ≠ []) (hb : BoundedL ds) :
    Canon (removeLeadingZeros ds neg) :=
  ⟨rlz_mcanon ds neg h hb, rlz_negative_of_zero ds neg h hb⟩

theorem rlz_toInt (ds : List Nat) (neg : Bool) :
    toInt (removeLeadingZeros ds neg) =
      if neg then -(magVal ds : Int) else (magVal ds : Int) := by
  have hv := rlz_digits_magVal ds neg
  unfold removeLeadingZeros at hv ⊢
  by_cases hs : (popzRev ds.reverse).reverse = [0]
  · simp only [hs, if_pos] at hv ⊢
    simp [magVal] at hv
    simp [toInt, magVal, ← hv]
  · simp only [hs, if_neg, ite_false] at hv ⊢
    simp [toInt] at hv ⊢
    rw [hv]

theorem rlz_negative_false (ds : List Nat) :
    (removeLeadingZeros ds false).negative = false := by
  unfold removeLeadingZeros
  by_cases hs : (popzRev ds.reverse).reverse = [0] <;> simp [hs]

theorem ofVec_canon (ds : List Nat) (neg : Bool) (h : ds ≠ []) (hb : BoundedL ds) :
    Canon (ofVec ds neg) := rlz_canon ds neg h hb

theorem ofVec_magVal (ds : List Nat) (neg : Bool) :
    magVal (ofVec ds neg).digits = magVal ds := rlz_digits_magVal ds neg

end BigNum

/-! ## Uniqueness of canonical representations -/

namespace BigNum

theorem magVal_ne_zero_of_getLastD (l : List Nat) (hne : l ≠ [])
    (h : l.getLastD 0 ≠ 0) : magVal l ≠ 0 := by
  intro h0
  exact h ((magVal_eq_zero_iff l).mp h0 _ (getLastD_mem l hne))

theorem getLastD_cons_ne (x : Nat) (l : List Nat) (hl : l ≠ [])
    (h : (x :: l).getLastD 0 ≠ 0) : l.getLastD 0 ≠ 0 := by
  rw [List.getLastD_cons] at h
  rwa [getLastD_irrel l hl 0 x]

theorem magVal_inj : ∀ ds es : List Nat, BoundedL ds → BoundedL es →
    (ds.length = 1 ∨ ds.getLastD 0 ≠ 0) → (es.length = 1 ∨ es.getLastD 0 ≠ 0) →
    ds ≠ [] → es ≠ [] → magVal ds = magVal es → ds = es := by
  intro ds
  induction ds with
  | nil => intro es _ _ _ _ hd _ _; exact absurd rfl hd
  | cons d ds ih =>
    intro es hdb heb hdc hec hd he hv
    cases es with
    | nil => exact absurd rfl he
    | cons e es =>
      have hdW : d < W := hdb d (by simp)
      have heW : e < W := heb e (by simp)
      have hveq : d + W * magVal ds = e + W * magVal es := hv
      have hW : W = 18446744073709551616 := by norm_num [W]
      rw [hW] at hveq hdW heW
      have hde : d = e ∧ magVal ds = magVal es := by constructor <;> omega
      cases hds : ds with
      | nil =>
        cases hes : es with
        | nil => simp [hde.1]
        | cons g gs =>
          exfalso
          have h2 : (e :: es).getLastD 0 ≠ 0 := by
            rcases hec with h1 | h2
            · rw [hes] at h1; simp at h1
            · exact h2
          have h3 : (g :: gs).getLastD 0 ≠ 0 := by
            rw [← hes]
            exact getLastD_cons_ne e es (by rw [hes]; simp) h2
          have h4 : magVal (g :: gs) ≠ 0 :=
            magVal_ne_zero_of_getLastD _ (by simp) h3
          have h5 : magVal es ≠ 0 := by rw [hes]; exact h4
          have h6 : magVal ds = magVal es := hde.2
          rw [hds] at h6
          simp [magVal] at h6
          exact h5 (h6.symm)
      | cons f fs =>
        cases hes : es with
        | nil =>
          exfalso
          have h2 : (d :: ds).getLastD 0 ≠ 0 := by
            rcases hdc with h1 | h2
            · rw [hds] at h1; simp at h1
            · exact h2
          have h3 : (f :: fs).getLastD 0 ≠ 0 := by
            rw [← hds]
            exact getLastD_cons_ne d ds (by rw [hds]; simp) h2
          have h4 : magVal (f :: fs) ≠ 0 :=
            magVal_ne_zero_of_getLastD _ (by simp) h3
          have h5 : magVal ds ≠ 0 := by rw [hds]; exact h4
          have h6 : magVal ds = magVal es := hde.2
          rw [hes] at h6
          simp [magVal] at h6
          exact h5 h6
        | cons g gs =>
          have htail : ds = es := by
            apply ih es
            · intro x hx; exact hdb x (by simp [hx])
            · intro x hx; exact heb x (by simp [hx])
            · rcases hdc with h1 | h2
              · exact absurd h1 (by rw [hds]; simp)
              · exact Or.inr (getLastD_cons_ne d ds (by rw [hds]; simp) h2)
            · rcases hec with h1 | h2
              · exact absurd h1 (by rw [hes]; simp)
              · exact Or.inr (getLastD_cons_ne e es (by rw [hes]; simp) h2)
            · rw [hds]; simp
            · rw [hes]; simp
            · exact hde.2
          rw [hds, hes] at htail
          rw [hde.1, htail]

theorem canon_toInt_inj (a b : BigNum) (ha : Canon a) (hb : Canon b)
    (hv : toInt a = toInt b) : a = b := by
  obtain ⟨⟨hane, hab, hac⟩, haz⟩ := ha
  obtain ⟨⟨hbne, hbb, hbc⟩, hbz⟩ := hb
  have hmag : magVal a.digits = magVal b.digits := by
    unfold toInt at hv
    cases hna : a.negative <;> cases hnb : b.negative <;>
      simp [hna, hnb] at hv <;> omega
  have hd : a.digits = b.digits :=
    magVal_inj a.digits b.digits hab hbb hac hbc hane hbne hmag
  have hneg : a.negative = b.negative := by
    unfold toInt at hv
    cases hna : a.negative <;> cases hnb : b.negative <;> try rfl
    · exfalso
      simp [hna, hnb] at hv
      have hz : magVal b.digits = 0 := by omega
      have := hbz hz
      rw [hnb] at this
      exact Bool.noConfusion this
    · exfalso
      simp [hna, hnb] at hv
      have hz : magVal a.digits = 0 := by omega
      have := haz hz
      rw [hna] at this
      exact Bool.noConfusion this
  cases a
  cases b
  simp_all

end BigNum

/-! ## Comparison correctness -/

namespace BigNum

/-- Value of a most-significant-first digit list. -/
def natValRev : List Nat → Nat
  | [] => 0
  | x :: xs => x * W ^ xs.length + natValRev xs

theorem natValRev_eq (xs : List Nat) : natValRev xs = magVal xs.reverse := by
  induction xs with
  | nil => rfl
  | cons x xs ih =>
    simp only [natValRev, ih, List.reverse_cons, magVal_append]
    simp [magVal]
    ring

theorem natValRev_lt (xs : List Nat) (h : BoundedL xs) : natValRev xs < W ^ xs.length := by
  have := magVal_lt xs.reverse (by intro d hd; exact h d (by simpa using hd))
  rw [natValRev_eq]
  simpa using this

theorem cmpMagRev_spec : ∀ xs ys : List Nat, xs.length = ys.length →
    BoundedL xs → BoundedL ys →
    (cmpMagRev xs ys < 0 ↔ natValRev xs < natValRev ys) ∧
    (cmpMagRev xs ys = 0 ↔ natValRev xs = natValRev ys) := by
  intro xs
  induction xs with
  | nil =>
    intro ys hlen _ _
    have : ys = [] := List.length_eq_zero.mp hlen.symm
    subst this
    simp [cmpMagRev, natValRev]
  | cons x xs ih =>
    intro ys hlen hbx hby
    cases ys with
    | nil => simp at hlen
    | cons y ys =>
      have hlen2 : xs.length = ys.length := by simpa using hlen
      have hx : x < W := hbx x (by simp)
      have hy : y < W := hby y (by simp)
      have hxs : BoundedL xs := fun d hd => hbx d (by simp [hd])
      have hys : BoundedL ys := fun d hd => hby d (by simp [hd])
      have hvx : natValRev xs < W ^ xs.length := natValRev_lt xs hxs
      have hvy : natValRev ys < W ^ ys.length := natValRev_lt ys hys
      have ihs := ih ys hlen2 hxs hys
      by_cases hxy : x = y
      · subst hxy
        have heq : cmpMagRev (x :: xs) (x :: ys) = cmpMagRev xs ys := by
          simp [cmpMagRev]
        rw [heq]
        simp only [natValRev]
        rw [hlen2]
        constructor
        · rw [ihs.1]; omega
        · rw [ihs.2]; omega
      · have hne : cmpMagRev (x :: xs) (y :: ys) = if x < y then -1 else 1 := by
          simp [cmpMagRev, hxy]
        rw [hne]
        simp only [natValRev]
        rw [hlen2] at hvx
        by_cases hlt : x < y
        · have : x * W ^ ys.length + natValRev xs < y * W ^ ys.length + natValRev ys := by
            calc x * W ^ ys.length + natValRev xs
                < x * W ^ ys.length + W ^ ys.length := by omega
              _ = (x + 1) * W ^ ys.length := by ring
              _ ≤ y * W ^ ys.length := Nat.mul_le_mul_right _ (by omega)
              _ ≤ y * W ^ ys.length + natValRev ys := by omega
          rw [hlen2]
          simp [hlt, this]
          omega
        · have hgt : y < x := by omega
          have : y * W ^ ys.length + natValRev ys < x * W ^ xs.length + natValRev xs := by
            rw [hlen2]
            calc y * W ^ ys.length + natValRev ys
                < y * W ^ ys.length + W ^ ys.length := by omega
              _ = (y + 1) * W ^ ys.length := by ring
              _ ≤ x * W ^ ys.length := Nat.mul_le_mul_right _ (by omega)
              _ ≤ x * W ^ ys.length + natValRev xs := by omega
          rw [hlen2] at this ⊢
          simp [hlt]
          omega

theorem compareMag_spec (a b : List Nat) (hab : BoundedL a) (hbb : BoundedL b)
    (hac : a.length = 1 ∨ a.getLastD 0 ≠ 0) (hbc : b.length = 1 ∨ b.getLastD 0 ≠ 0)
    (hane : a ≠ []) (hbne : b ≠ []) :
    (compareMag a b < 0 ↔ magVal a < magVal b) ∧
    (compareMag a b = 0 ↔ magVal a = magVal b) := by
  unfold compareMag
  by_cases hlen : a.length = b.length
  · simp only [hlen, ne_eq, not_true_eq_false, if_false, ite_false]
    have hrl : a.reverse.length = b.reverse.length := by simpa using hlen
    have := cmpMagRev_spec a.reverse b.reverse hrl
      (fun d hd => hab d (by simpa using hd)) (fun d hd => hbb d (by simpa using hd))
    rw [natValRev_eq, natValRev_eq, List.reverse_reverse, List.reverse_reverse] at this
    simpa using this
  · have hlow : ∀ l : List Nat, l ≠ [] → (l.length = 1 ∨ l.getLastD 0 ≠ 0) →
        BoundedL l → ∀ m : List Nat, m ≠ [] → BoundedL m → m.length < l.length →
        magVal m < magVal l := by
      intro l hlne hlc hlb m hmne hmb hml
      rcases hlc with h1 | h2
      · exfalso
        have hm0 : m.length = 0 := by omega
        exact hmne (List.length_eq_zero.mp hm0)
      · calc magVal m < W ^ m.length := magVal_lt m hmb
          _ ≤ W ^ (l.length - 1) := Nat.pow_le_pow_right W_pos (by omega)
          _ ≤ 1 * W ^ (l.length - 1) := by omega
          _ ≤ l.getLastD 0 * W ^ (l.length - 1) := by
              apply Nat.mul_le_mul_right
              omega
          _ ≤ magVal l := magVal_getLast_le l hlne
    simp only [ne_eq, hlen, not_false_eq_true, if_true, ite_true]
    by_cases hlt : a.length < b.length
    · have := hlow b hbne hbc hbb a hane hab hlt
      simp [hlt]
      omega
    · have hgt : b.length < a.length := by omega
      have := hlow a hane hac hab b hbne hbb hgt
      simp [hlt]
      omega

end BigNum

namespace BigNum

theorem cmpMagRev_cases : ∀ xs ys : List Nat,
    cmpMagRev xs ys = -1 ∨ cmpMagRev xs ys = 0 ∨ cmpMagRev xs ys = 1 := by
  intro xs
  induction xs with
  | nil => intro ys; cases ys <;> simp [cmpMagRev]
  | cons x xs ih =>
    intro ys
    cases ys with
    | nil => simp [cmpMagRev]
    | cons y ys =>
      by_cases hxy : x = y
      · simpa [cmpMagRev, hxy] using ih ys
      · by_cases hlt : x < y <;> simp [cmpMagRev, hxy, hlt]

theorem compareMag_cases (a b : List Nat) :
    compareMag a b = -1 ∨ compareMag a b = 0 ∨ compareMag a b = 1 := by
  unfold compareMag
  by_cases hlen : a.length = b.length
  · simpa [hlen] using cmpMagRev_cases a.reverse b.reverse
  · by_cases hlt : a.length < b.length <;> simp [hlen, hlt]

theorem canon_digits_facts (a : BigNum) (h : Canon a) :
    a.digits ≠ [] ∧ BoundedL a.digits ∧
    (a.digits.length = 1 ∨ a.digits.getLastD 0 ≠ 0) := h.1

theorem canon_neg_pos (a : BigNum) (h : Canon a) (hn : a.negative = true) :
    0 < magVal a.digits := by
  rcases Nat.eq_zero_or_pos (magVal a.digits) with h0 | h1
  · have := h.2 h0
    rw [hn] at this
    exact absurd this (by simp)
  · exact h1

theorem compare_spec (a b : BigNum) (ha : Canon a) (hb : Canon b) :
    (compare a b < 0 ↔ toInt a < toInt b) ∧
    (compare a b = 0 ↔ toInt a = toInt b) := by
  obtain ⟨hane, hab, hac⟩ := canon_digits_facts a ha
  obtain ⟨hbne, hbb, hbc⟩ := canon_digits_facts b hb
  have hms := compareMag_spec a.digits b.digits hab hbb hac hbc hane hbne
  have hmc := compareMag_cases a.digits b.digits
  cases hna : a.negative <;> cases hnb : b.negative
  · have hco : compare a b = compareMag a.digits b.digits := by
      unfold compare
      simp [hna, hnb]
    have hta : toInt a = (magVal a.digits : Int) := by unfold toInt; simp [hna]
    have htb : toInt b = (magVal b.digits : Int) := by unfold toInt; simp [hnb]
    rw [hco, hta, htb]
    constructor
    · constructor
      · intro h
        exact_mod_cast hms.1.mp h
      · intro h
        exact hms.1.mpr (by exact_mod_cast h)
    · constructor
      · intro h
        exact_mod_cast hms.2.mp h
      · intro h
        exact hms.2.mpr (by exact_mod_cast h)
  · have hco : compare a b = 1 := by
      unfold compare
      simp [hna, hnb]
    have hta : toInt a = (magVal a.digits : Int) := by unfold toInt; simp [hna]
    have htb : toInt b = -(magVal b.digits : Int) := by unfold toInt; simp [hnb]
    have hbpos := canon_neg_pos b hb hnb
    rw [hco, hta, htb]
    constructor <;> constructor <;> intro h <;> omega
  · have hco : compare a b = -1 := by
      unfold compare
      simp [hna, hnb]
    have hta : toInt a = -(magVal a.digits : Int) := by unfold toInt; simp [hna]
    have htb : toInt b = (magVal b.digits : Int) := by unfold toInt; simp [hnb]
    have hapos := canon_neg_pos a ha hna
    rw [hco, hta, htb]
    constructor <;> constructor <;> intro h <;> omega
  · have hco : compare a b = -compareMag a.digits b.digits := by
      unfold compare
      simp [hna, hnb]
    have hta : toInt a = -(magVal a.digits : Int) := by unfold toInt; simp [hna]
    have htb : toInt b = -(magVal b.digits : Int) := by unfold toInt; simp [hnb]
    rw [hco, hta, htb]
    rcases hmc with h | h | h
    · have hlt : magVal a.digits < magVal b.digits := hms.1.mp (by rw [h]; norm_num)
      rw [h]
      constructor <;> constructor <;> intro hx <;> omega
    · have heq : magVal a.digits = magVal b.digits := hms.2.mp h
      rw [h]
      constructor <;> constructor <;> intro hx <;> omega
    · have hnlt : ¬ magVal a.digits < magVal b.digits := by
        intro hc
        have := hms.1.mpr hc
        omega
      have hneq : ¬ magVal a.digits = magVal b.digits := by
        intro hc
        have := hms.2.mpr hc
        omega
      rw [h]
      constructor <;> constructor <;> intro hx <;> omega

theorem compare_cases (a b : BigNum) :
    compare a b = -1 ∨ compare a b = 0 ∨ compare a b = 1 := by
  unfold compare
  have h := compareMag_cases a.digits b.digits
  cases ha : a.negative <;> cases hb : b.negative <;> simp [ha, hb] <;> omega

theorem compare_le_iff (a b : BigNum) (ha : Canon a) (hb : Canon b) :
    compare a b ≤ 0 ↔ toInt a ≤ toInt b := by
  have hs := compare_spec a b ha hb
  have hc := compare_cases a b
  constructor
  · intro h
    rcases lt_or_eq_of_le h with h1 | h1
    · exact le_of_lt (hs.1.mp h1)
    · exact le_of_eq (hs.2.mp h1)
  · intro h
    rcases lt_or_eq_of_le h with h1 | h1
    · exact le_of_lt (hs.1.mpr h1)
    · exact le_of_eq (hs.2.mpr h1)

theorem compare_ge_iff (a b : BigNum) (ha : Canon a) (hb : Canon b) :
    0 ≤ compare a b ↔ toInt b ≤ toInt a := by
  have hs := compare_spec a b ha hb
  have hc := compare_cases a b
  constructor
  · intro h
    by_cases he : compare a b = 0
    · exact le_of_eq (hs.2.mp he).symm
    · have : ¬ toInt a < toInt b := by rw [← hs.1]; omega
      omega
  · intro h
    by_cases he : toInt a = toInt b
    · rw [hs.2.mpr he]
    · have : ¬ compare a b < 0 := by rw [hs.1]; omega
      omega

end BigNum

/-! ## Addition correctness -/

namespace BigNum

theorem W_lit : W = 18446744073709551616 := by norm_num [W]

theorem div_W_lt (t k : Nat) (hk : k ≤ 3) (h : t < k * W) : t / W < W := by
  apply Nat.div_lt_of_lt_mul
  have h2 : 3 * W ≤ W * W := Nat.mul_le_mul_right W (by norm_num [W])
  have h3 : k * W ≤ 3 * W := Nat.mul_le_mul_right W hk
  omega

theorem carryInto_magVal : ∀ (rs : List Nat) (c : Nat),
    magVal (carryInto rs c) = magVal rs + c := by
  intro rs
  induction rs with
  | nil =>
    intro c
    cases c with
    | zero => rfl
    | succ n =>
      show magVal [n + 1] = _
      simp [magVal]
  | cons r rs ih =>
    intro c
    cases c with
    | zero => rfl
    | succ n =>
      show magVal ((r + (n + 1)) % W :: carryInto rs ((r + (n + 1)) / W)) = _
      rw [magVal_cons, ih, magVal_cons, Nat.mul_add]
      have h1 := Nat.mod_add_div (r + (n + 1)) W
      omega

theorem carryInto_bounded : ∀ (rs : List Nat) (c : Nat), BoundedL rs → c < W →
    BoundedL (carryInto rs c) := by
  intro rs
  induction rs with
  | nil =>
    intro c _ hc
    cases c with
    | zero => intro d hd; simp [carryInto] at hd
    | succ n =>
      intro d hd
      simp only [carryInto] at hd
      rcases List.mem_cons.mp hd with rfl | hd2
      · exact hc
      · simp at hd2
  | cons r rs ih =>
    intro c hb hc
    cases c with
    | zero => exact hb
    | succ n =>
      intro d hd
      simp only [carryInto] at hd
      rcases List.mem_cons.mp hd with rfl | hd2
      · exact Nat.mod_lt _ W_pos
      · have hr : r < W := hb r (by simp)
        have hdiv : (r + (n + 1)) / W < W := div_W_lt _ 2 (by omega) (by omega)
        exact ih _ (fun x hx => hb x (by simp [hx])) hdiv d hd2

theorem carryInto_ne_nil (rs : List Nat) (c : Nat) (h : rs ≠ []) :
    carryInto rs c ≠ [] := by
  cases rs with
  | nil => exact absurd rfl h
  | cons r rs => cases c <;> simp [carryInto]

theorem addWords_magVal : ∀ (a b : List Nat) (c : Nat),
    magVal (addWords a b c) = magVal a + magVal b + c := by
  intro a
  induction a with
  | nil =>
    intro b c
    show magVal (carryInto b c) = _
    rw [carryInto_magVal]
    simp [magVal]
  | cons x xs ih =>
    intro b c
    cases b with
    | nil =>
      show magVal ((x + c) % W :: addWords xs [] ((x + c) / W)) = _
      rw [magVal_cons, ih]
      simp only [magVal_nil, Nat.add_zero, magVal_cons, Nat.mul_add]
      have h1 := Nat.mod_add_div (x + c) W
      omega
    | cons y ys =>
      show magVal ((x + y + c) % W :: addWords xs ys ((x + y + c) / W)) = _
      rw [magVal_cons, ih]
      simp only [magVal_cons, Nat.mul_add]
      have h1 := Nat.mod_add_div (x + y + c) W
      omega

theorem addWords_bounded : ∀ (a b : List Nat) (c : Nat), BoundedL a → BoundedL b →
    c < W → BoundedL (addWords a b c) := by
  intro a
  induction a with
  | nil =>
    intro b c _ hb hc
    exact carryInto_bounded b c hb hc
  | cons x xs ih =>
    intro b c ha hb hc
    have hx : x < W := ha x (by simp)
    have hxs : BoundedL xs := fun d hd => ha d (by simp [hd])
    cases b with
    | nil =>
      intro d hd
      simp only [addWords] at hd
      rcases List.mem_cons.mp hd with rfl | hd2
      · exact Nat.mod_lt _ W_pos
      · have hdiv : (x + c) / W < W := div_W_lt _ 2 (by omega) (by omega)
        exact ih [] _ hxs (by intro d hd; simp at hd) hdiv d hd2
    | cons y ys =>
      have hy : y < W := hb y (by simp)
      have hys : BoundedL ys := fun d hd => hb d (by simp [hd])
      intro d hd
      simp only [addWords] at hd
      rcases List.mem_cons.mp hd with rfl | hd2
      · exact Nat.mod_lt _ W_pos
      · have hdiv : (x + y + c) / W < W := div_W_lt _ 3 (by omega) (by omega)
        exact ih ys _ hxs hys hdiv d hd2

theorem addWords_ne_nil (a b : List Nat) (c : Nat) (h : a ≠ []) :
    addWords a b c ≠ [] := by
  cases a with
  | nil => exact absurd rfl h
  | cons x xs => cases b <;> simp [addWords]

end BigNum

/-! ## Signed addition, negation, subtraction -/

namespace BigNum

theorem magVal_lt_of_shorter (l m : List Nat) (hlne : l ≠ [])
    (hlc : l.length = 1 ∨ l.getLastD 0 ≠ 0) (hmne : m ≠ []) (hmb : BoundedL m)
    (hml : m.length < l.length) : magVal m < magVal l := by
  rcases hlc with h1 | h2
  · exfalso
    have hm0 : m.length = 0 := by omega
    exact hmne (List.length_eq_zero.mp hm0)
  · calc magVal m < W ^ m.length := magVal_lt m hmb
      _ ≤ W ^ (l.length - 1) := Nat.pow_le_pow_right W_pos (by omega)
      _ ≤ 1 * W ^ (l.length - 1) := by omega
      _ ≤ l.getLastD 0 * W ^ (l.length - 1) := by
          apply Nat.mul_le_mul_right
          omega
      _ ≤ magVal l := magVal_getLast_le l hlne

theorem canon_len_le (a b : List Nat) (hane : a ≠ []) (hab : BoundedL a)
    (hbne : b ≠ []) (hbb : BoundedL b) (hbc : b.length = 1 ∨ b.getLastD 0 ≠ 0)
    (h : magVal b ≤ magVal a) : b.length ≤ a.length := by
  by_contra hc
  push_neg at hc
  have := magVal_lt_of_shorter b a hbne hbc hane hab hc
  omega

theorem addUnsigned_magVal (a b : BigNum) :
    magVal (addUnsigned a b).digits = magVal a.digits + magVal b.digits := by
  unfold addUnsigned
  rw [ofVec_magVal, addWords_magVal]
  omega

theorem addUnsigned_canon (a b : BigNum) (ha : a.digits ≠ [])
    (hab : BoundedL a.digits) (hbb : BoundedL b.digits) :
    Canon (addUnsigned a b) :=
  ofVec_canon _ _ (addWords_ne_nil _ _ _ ha) (addWords_bounded _ _ 0 hab hbb W_pos)

theorem toInt_mk (ds : List Nat) (n : Bool) :
    toInt ⟨ds, n⟩ = if n then -(magVal ds : Int) else (magVal ds : Int) := rfl

theorem mcanon_mk (x : BigNum) (n : Bool) (h : Canon x) : MCanon ⟨x.digits, n⟩ := h.1

end BigNum

namespace BigNum

theorem isZero_iff (a : BigNum) : isZero a = true ↔ a.digits = [0] := by
  simp [isZero]

theorem mcanon_magVal_zero_iff (a : BigNum) (h : MCanon a) :
    magVal a.digits = 0 ↔ a.digits = [0] := by
  constructor
  · exact mcanon_digits_zero a h
  · intro hd
    rw [hd]
    simp [magVal]

theorem negate_toInt (a : BigNum) : toInt (negate a) = -toInt a := by
  unfold negate
  by_cases hz : isZero a
  · have hd : a.digits = [0] := (isZero_iff a).mp hz
    rw [if_pos hz]
    unfold toInt
    rw [hd]
    cases a.negative <;> simp [magVal]
  · rw [if_neg hz]
    unfold toInt
    cases hn : a.negative <;> simp

theorem negate_mcanon (a : BigNum) (h : MCanon a) : MCanon (negate a) := by
  unfold negate
  by_cases hz : isZero a
  · rwa [if_pos hz]
  · rw [if_neg hz]
    exact h

theorem negate_canon (a : BigNum) (h : Canon a) : Canon (negate a) := by
  unfold negate
  by_cases hz : isZero a
  · rwa [if_pos hz]
  · rw [if_neg hz]
    refine ⟨h.1, ?_⟩
    intro hmz
    have hd := mcanon_digits_zero a h.1 hmz
    rw [isZero_iff] at hz
    exact absurd hd hz

theorem canon_of_nonneg (a : BigNum) (h : MCanon a) (hn : a.negative = false) :
    Canon a := ⟨h, fun _ => hn⟩

theorem mcanon_toInt_nonneg (a : BigNum) (hn : a.negative = false) : 0 ≤ toInt a := by
  unfold toInt
  rw [hn]
  simp

theorem canon_toInt_pos (a : BigNum) (h : Canon a) (hn : a.negative = false)
    (hz : toInt a ≠ 0) : 0 < toInt a := by
  have := mcanon_toInt_nonneg a hn
  omega

theorem add_nonneg_sign (a b : BigNum) (hna : a.negative = false)
    (hnb : b.negative = false) : (add a b).negative = false := by
  unfold add
  rw [hna, hnb]
  simp

theorem toInt_eq_magVal (a : BigNum) (hn : a.negative = false) :
    toInt a = (magVal a.digits : Int) := by
  unfold toInt
  rw [hn]
  simp

end BigNum

/-! ## Shift correctness -/

namespace BigNum

theorem shlWords_magVal (bs : Nat) : ∀ (ds : List Nat) (c : Nat),
    magVal (shlWords bs ds c) = magVal ds * 2 ^ bs + c := by
  intro ds
  induction ds with
  | nil => intro c; simp [shlWords, magVal]
  | cons d ds ih =>
    intro c
    show magVal ((d * 2 ^ bs + c) % W :: shlWords bs ds ((d * 2 ^ bs + c) / W)) = _
    rw [magVal_cons, ih, Nat.mul_add, magVal_cons]
    have h1 := Nat.mod_add_div (d * 2 ^ bs + c) W
    have h2 : (d + W * magVal ds) * 2 ^ bs = d * 2 ^ bs + W * (magVal ds * 2 ^ bs) := by
      ring
    rw [h2]
    omega

theorem shlWords_bounded (bs : Nat) (hbs : bs ≤ 63) : ∀ (ds : List Nat) (c : Nat),
    BoundedL ds → c < 2 ^ bs → BoundedL (shlWords bs ds c) := by
  intro ds
  induction ds with
  | nil =>
    intro c _ hc
    intro d hd
    simp [shlWords] at hd
    rw [hd]
    calc c < 2 ^ bs := hc
      _ ≤ 2 ^ 63 := Nat.pow_le_pow_right (by norm_num) hbs
      _ < W := by norm_num [W]
  | cons d ds ih =>
    intro c hb hc
    intro x hx
    simp only [shlWords] at hx
    rcases List.mem_cons.mp hx with rfl | hx2
    · exact Nat.mod_lt _ W_pos
    · have hd : d < W := hb d (by simp)
      have hdiv : (d * 2 ^ bs + c) / W < 2 ^ bs := by
        apply Nat.div_lt_of_lt_mul
        calc d * 2 ^ bs + c < d * 2 ^ bs + 2 ^ bs := by omega
          _ = (d + 1) * 2 ^ bs := by ring
          _ ≤ W * 2 ^ bs := Nat.mul_le_mul_right _ (by omega)
      exact ih _ (fun y hy => hb y (by simp [hy])) hdiv x hx2

theorem shlWords_ne_nil (bs : Nat) (ds : List Nat) (c : Nat) :
    shlWords bs ds c ≠ [] := by
  cases ds <;> simp [shlWords]

theorem magVal_replicate_append (n : Nat) (ds : List Nat) :
    magVal (List.replicate n 0 ++ ds) = W ^ n * magVal ds := by
  rw [magVal_append, magVal_replicate_zero, List.length_replicate]
  omega

theorem pow_W_eq (n : Nat) : W ^ n = 2 ^ (64 * n) := by
  rw [show W = 2 ^ 64 from rfl, ← pow_mul]

theorem shl_spec (a : BigNum) (k : Nat) (ha : MCanon a) :
    MCanon (shl a k) ∧ magVal (shl a k).digits = magVal a.digits * 2 ^ k ∧
    (a.negative = false → (shl a k).negative = false) := by
  obtain ⟨hane, hab, hac⟩ := ha
  by_cases hk : k = 0
  · subst hk
    have h0 : shl a 0 = a := rfl
    rw [h0]
    exact ⟨⟨hane, hab, hac⟩, by omega, fun h => h⟩
  · have hdef : shl a k =
        if k % 64 = 0 then ofVec (List.replicate (k / 64) 0 ++ a.digits ++ [0]) a.negative
        else ofVec (List.replicate (k / 64) 0 ++ shlWords (k % 64) a.digits 0) a.negative := by
      unfold shl
      rw [if_neg hk]
    have hsplit : 64 * (k / 64) + k % 64 = k := Nat.div_add_mod k 64
    by_cases hbs : k % 64 = 0
    · rw [hdef, if_pos hbs]
      have hds : List.replicate (k / 64) 0 ++ a.digits ++ [0] ≠ [] := by
        simp
      have hbd : BoundedL (List.replicate (k / 64) 0 ++ a.digits ++ [0]) := by
        intro d hd
        simp at hd
        rcases hd with hd | hd | hd
        · rw [hd.2]; exact W_pos
        · exact hab d hd
        · rw [hd]; exact W_pos
      refine ⟨(ofVec_canon _ _ hds hbd).1, ?_, ?_⟩
      · rw [ofVec_magVal]
        rw [List.append_assoc, magVal_replicate_append, magVal_append]
        have hz : magVal [0] = 0 := by simp [magVal]
        rw [hz]
        rw [pow_W_eq]
        have : 64 * (k / 64) = k := by omega
        rw [this]
        ring
      · intro hn
        rw [hn]
        exact rlz_negative_false _
    · rw [hdef, if_neg hbs]
      have hds : List.replicate (k / 64) 0 ++ shlWords (k % 64) a.digits 0 ≠ [] := by
        intro h
        have := shlWords_ne_nil (k % 64) a.digits 0
        simp at h
        exact this h.2
      have hbd : BoundedL (List.replicate (k / 64) 0 ++ shlWords (k % 64) a.digits 0) := by
        intro d hd
        simp at hd
        rcases hd with hd | hd
        · rw [hd.2]; exact W_pos
        · exact shlWords_bounded (k % 64) (by omega) a.digits 0 hab
            (Nat.pos_pow_of_pos _ (by norm_num)) d hd
      refine ⟨(ofVec_canon _ _ hds hbd).1, ?_, ?_⟩
      · rw [ofVec_magVal, magVal_replicate_append, shlWords_magVal]
        rw [pow_W_eq]
        rw [show 2 ^ (64 * (k / 64)) * (magVal a.digits * 2 ^ (k % 64) + 0)
            = magVal a.digits * (2 ^ (64 * (k / 64)) * 2 ^ (k % 64)) from by ring]
        rw [← pow_add, hsplit]
      · intro hn
        rw [hn]
        exact rlz_negative_false _

theorem shl_canon (a : BigNum) (k : Nat) (ha : Canon a) : Canon (shl a k) := by
  by_cases hk : k = 0
  · subst hk
    have h0 : shl a 0 = a := rfl
    rwa [h0]
  · unfold shl
    rw [if_neg hk]
    by_cases hbs : k % 64 = 0
    · simp only [hbs, if_pos rfl]
      apply ofVec_canon
      · simp
      · intro d hd
        simp at hd
        rcases hd with hd | hd | hd
        · rw [hd.2]; exact W_pos
        · exact ha.1.2.1 d hd
        · rw [hd]; exact W_pos
    · simp only [hbs, if_neg, ite_false]
      apply ofVec_canon
      · intro h
        have := shlWords_ne_nil (k % 64) a.digits 0
        simp at h
        exact this h.2
      · intro d hd
        simp at hd
        rcases hd with hd | hd
        · rw [hd.2]; exact W_pos
        · exact shlWords_bounded (k % 64) (by omega) a.digits 0 ha.1.2.1
            (Nat.pos_pow_of_pos _ (by norm_num)) d hd

end BigNum

namespace BigNum

theorem shrWords_spec (bs : Nat) (hbs : bs ≤ 64) : ∀ (xs : List Nat) (c : Nat),
    BoundedL xs → c < 2 ^ bs →
    natValRev (shrWords bs xs c) = (c * W ^ xs.length + natValRev xs) / 2 ^ bs ∧
    BoundedL (shrWords bs xs c) ∧ (shrWords bs xs c).length = xs.length := by
  intro xs
  induction xs with
  | nil =>
    intro c _ hc
    refine ⟨?_, by intro d hd; simp [shrWords] at hd, by simp [shrWords]⟩
    show (0 : Nat) = (c * W ^ 0 + 0) / 2 ^ bs
    rw [Nat.pow_zero]
    rw [Nat.div_eq_of_lt (by omega)]
  | cons d ds ih =>
    intro c hb hc
    have hd : d < W := hb d (by simp)
    have hds : BoundedL ds := fun x hx => hb x (by simp [hx])
    have hρ : d % 2 ^ bs < 2 ^ bs := Nat.mod_lt _ (Nat.pos_pow_of_pos _ (by norm_num))
    obtain ⟨ihv, ihb, ihl⟩ := ih (d % 2 ^ bs) hds hρ
    have hdvd : (2 : Nat) ^ bs ∣ W := by
      rw [show W = 2 ^ 64 from rfl]
      exact pow_dvd_pow 2 hbs
    obtain ⟨M, hM⟩ := hdvd
    have hmod : (c * W + d) % 2 ^ bs = d % 2 ^ bs := by
      rw [hM]
      rw [show c * (2 ^ bs * M) + d = d + (c * M) * 2 ^ bs from by ring]
      exact Nat.add_mul_mod_self_right d (c * M) (2 ^ bs)
    have hqr := Nat.div_add_mod (c * W + d) (2 ^ bs)
    refine ⟨?_, ?_, ?_⟩
    · have hstep : natValRev (shrWords bs (d :: ds) c)
          = (c * W + d) / 2 ^ bs * W ^ ds.length
            + natValRev (shrWords bs ds (d % 2 ^ bs)) := by
        show (c * W + d) / 2 ^ bs * W ^ (shrWords bs ds (d % 2 ^ bs)).length
          + natValRev (shrWords bs ds (d % 2 ^ bs)) = _
        rw [ihl]
      rw [hstep]
      have hgoal : (c * W ^ (d :: ds).length + natValRev (d :: ds))
          = (c * W ^ (ds.length + 1) + (d * W ^ ds.length + natValRev ds)) := rfl
      rw [hgoal]
      rw [ihv]
      have hV : c * W ^ (ds.length + 1) + (d * W ^ ds.length + natValRev ds)
          = (d % 2 ^ bs * W ^ ds.length + natValRev ds)
            + ((c * W + d) / 2 ^ bs * W ^ ds.length) * 2 ^ bs := by
        have h2 : (c * W + d) = 2 ^ bs * ((c * W + d) / 2 ^ bs) + d % 2 ^ bs := by
          rw [← hmod]
          omega
        calc c * W ^ (ds.length + 1) + (d * W ^ ds.length + natValRev ds)
            = (c * W + d) * W ^ ds.length + natValRev ds := by ring
          _ = (2 ^ bs * ((c * W + d) / 2 ^ bs) + d % 2 ^ bs) * W ^ ds.length
              + natValRev ds := by rw [← h2]
          _ = (d % 2 ^ bs * W ^ ds.length + natValRev ds)
              + ((c * W + d) / 2 ^ bs * W ^ ds.length) * 2 ^ bs := by ring
      rw [hV]
      rw [Nat.add_mul_div_right _ _ (Nat.pos_pow_of_pos _ (by norm_num))]
      omega
    · intro x hx
      simp only [shrWords] at hx
      rcases List.mem_cons.mp hx with rfl | hx2
      · apply Nat.div_lt_of_lt_mul
        calc c * W + d < c * W + W := by omega
          _ = (c + 1) * W := by ring
          _ ≤ 2 ^ bs * W := Nat.mul_le_mul_right _ (by omega)
      · exact ihb x hx2
    · simp only [shrWords, List.length_cons, ihl]

theorem magVal_drop (ds : List Nat) (n : Nat) (hb : BoundedL ds) :
    magVal (ds.drop n) = magVal ds / W ^ n := by
  by_cases hn : n ≤ ds.length
  · have hsplit : ds.take n ++ ds.drop n = ds := List.take_append_drop n ds
    have hlen : (ds.take n).length = n := by
      rw [List.length_take]
      omega
    have htb : BoundedL (ds.take n) := by
      intro d hd
      exact hb d (List.mem_of_mem_take hd)
    have htlt : magVal (ds.take n) < W ^ n := by
      have := magVal_lt (ds.take n) htb
      rwa [hlen] at this
    conv_rhs => rw [← hsplit]
    rw [magVal_append, hlen]
    rw [Nat.add_mul_div_left _ _ (Nat.pos_pow_of_pos _ W_pos)]
    rw [Nat.div_eq_of_lt htlt]
    omega
  · push_neg at hn
    rw [List.drop_eq_nil_of_le (by omega)]
    have hlt : magVal ds < W ^ n := by
      calc magVal ds < W ^ ds.length := magVal_lt ds hb
        _ ≤ W ^ n := Nat.pow_le_pow_right W_pos (by omega)
    rw [Nat.div_eq_of_lt hlt]
    rfl

theorem canon_zero : Canon zero := by decide

theorem canon_one : Canon one := by decide

theorem shr_nonneg_spec (a : BigNum) (k : Nat) (ha : Canon a)
    (hn : a.negative = false) :
    Canon (shr a k) ∧ (shr a k).negative = false ∧
    magVal (shr a k).digits = magVal a.digits / 2 ^ k := by
  have hane := ha.1.1
  have hab := ha.1.2.1
  have hac := ha.1.2.2
  by_cases hk : k = 0
  · subst hk
    have h0 : shr a 0 = a := rfl
    rw [h0]
    exact ⟨ha, hn, by omega⟩
  · have hsplit : 64 * (k / 64) + k % 64 = k := Nat.div_add_mod k 64
    have hdef : shr a k =
        if a.digits.length ≤ k / 64 then zero
        else if k % 64 = 0 then ofVec (a.digits.drop (k / 64)) a.negative
        else ofVec ((shrWords (k % 64) (a.digits.drop (k / 64)).reverse 0).reverse)
          a.negative := by
      unfold shr
      rw [if_neg hk]
    by_cases hlen : a.digits.length ≤ k / 64
    · rw [hdef, if_pos hlen]
      refine ⟨canon_zero, rfl, ?_⟩
      have hlt : magVal a.digits < 2 ^ k := by
        calc magVal a.digits < W ^ a.digits.length := magVal_lt _ hab
          _ ≤ W ^ (k / 64) := Nat.pow_le_pow_right W_pos hlen
          _ = 2 ^ (64 * (k / 64)) := pow_W_eq _
          _ ≤ 2 ^ k := Nat.pow_le_pow_right (by norm_num) (by omega)
      rw [Nat.div_eq_of_lt hlt]
      rfl
    · push_neg at hlen
      have hdropne : a.digits.drop (k / 64) ≠ [] := by
        intro h
        have := List.drop_eq_nil_iff_le.mp h
        omega
      have hdropb : BoundedL (a.digits.drop (k / 64)) := by
        intro d hd
        exact hab d (List.mem_of_mem_drop hd)
      by_cases hbs : k % 64 = 0
      · rw [hdef, if_neg (by omega), if_pos hbs]
        refine ⟨ofVec_canon _ _ hdropne hdropb, by rw [hn]; exact rlz_negative_false _, ?_⟩
        rw [ofVec_magVal, magVal_drop _ _ hab, pow_W_eq]
        have : 64 * (k / 64) = k := by omega
        rw [this]
      · rw [hdef, if_neg (by omega), if_neg hbs]
        have hrb : BoundedL (a.digits.drop (k / 64)).reverse := by
          intro d hd
          exact hdropb d (by simpa using hd)
        obtain ⟨hv, hbd, hln⟩ := shrWords_spec (k % 64) (by omega)
          (a.digits.drop (k / 64)).reverse 0 hrb
          (Nat.pos_pow_of_pos _ (by norm_num))
        have hresne : (shrWords (k % 64) (a.digits.drop (k / 64)).reverse 0).reverse ≠ [] := by
          intro h
          have h1 : shrWords (k % 64) (a.digits.drop (k / 64)).reverse 0 = [] := by
            have := congrArg List.reverse h
            simpa using this
          have h2 : (a.digits.drop (k / 64)).reverse.length = 0 := by
            rw [← hln, h1]
            rfl
          have h3 : (a.digits.drop (k / 64)).reverse = [] := List.length_eq_zero.mp h2
          exact hdropne (by simpa using h3)
        have hresb : BoundedL (shrWords (k % 64) (a.digits.drop (k / 64)).reverse 0).reverse := by
          intro d hd
          exact hbd d (by simpa using hd)
        refine ⟨ofVec_canon _ _ hresne hresb, by rw [hn]; exact rlz_negative_false _, ?_⟩
        rw [ofVec_magVal]
        have hmv : magVal (shrWords (k % 64) (a.digits.drop (k / 64)).reverse 0).reverse
            = natValRev (shrWords (k % 64) (a.digits.drop (k / 64)).reverse 0) := by
          rw [natValRev_eq]
        rw [hmv, hv]
        rw [natValRev_eq, List.reverse_reverse]
        rw [magVal_drop _ _ hab]
        rw [Nat.zero_mul, Nat.zero_add]
        rw [Nat.div_div_eq_div_mul]
        rw [pow_W_eq, ← pow_add, hsplit]

end BigNum

/-! ## Schoolbook multiplication correctness -/

namespace BigNum

theorem mulRow_magVal (ai : Nat) : ∀ (bs res : List Nat) (c : Nat),
    magVal (mulRow ai bs res c) = magVal res + ai * magVal bs + c := by
  intro bs
  induction bs with
  | nil =>
    intro res c
    show magVal (carryInto res c) = _
    rw [carryInto_magVal]
    simp [magVal]
  | cons b bs ih =>
    intro res c
    cases res with
    | nil =>
      show magVal ((ai * b + c) % W :: mulRow ai bs [] ((ai * b + c) / W)) = _
      rw [magVal_cons, ih]
      simp only [magVal_nil, magVal_cons, Nat.mul_add, Nat.add_zero, Nat.zero_add]
      have h1 := Nat.mod_add_div (ai * b + c) W
      have h2 : W * (ai * magVal bs) = ai * (W * magVal bs) := by ring
      omega
    | cons r rs =>
      show magVal ((r + ai * b + c) % W :: mulRow ai bs rs ((r + ai * b + c) / W)) = _
      rw [magVal_cons, ih]
      simp only [magVal_cons, Nat.mul_add]
      have h1 := Nat.mod_add_div (r + ai * b + c) W
      have h2 : W * (ai * magVal bs) = ai * (W * magVal bs) := by ring
      omega

theorem mulRow_bounded (ai : Nat) (hai : ai < W) : ∀ (bs res : List Nat) (c : Nat),
    BoundedL bs → BoundedL res → c < W → BoundedL (mulRow ai bs res c) := by
  intro bs
  induction bs with
  | nil =>
    intro res c _ hres hc
    exact carryInto_bounded res c hres hc
  | cons b bs ih =>
    intro res c hbs hres hc
    have hb : b < W := hbs b (by simp)
    have hbs2 : BoundedL bs := fun d hd => hbs d (by simp [hd])
    have hmul : ai * b ≤ (W - 1) * (W - 1) :=
      Nat.mul_le_mul (by omega) (by omega)
    have hWW : (W - 1) * (W - 1) + 2 * (W - 1) < W * W := by
      obtain ⟨w, hw⟩ : ∃ w, W = w + 1 := ⟨W - 1, by have := W_pos; omega⟩
      rw [hw]
      simp only [Nat.add_sub_cancel]
      nlinarith
    cases res with
    | nil =>
      intro x hx
      simp only [mulRow] at hx
      rcases List.mem_cons.mp hx with rfl | hx2
      · exact Nat.mod_lt _ W_pos
      · have hdiv : (ai * b + c) / W < W := by
          apply Nat.div_lt_of_lt_mul
          omega
        exact ih [] _ hbs2 (fun d hd => by simp at hd) hdiv x hx2
    | cons r rs =>
      have hr : r < W := hres r (by simp)
      have hrs : BoundedL rs := fun d hd => hres d (by simp [hd])
      intro x hx
      simp only [mulRow] at hx
      rcases List.mem_cons.mp hx with rfl | hx2
      · exact Nat.mod_lt _ W_pos
      · have hdiv : (r + ai * b + c) / W < W := by
          apply Nat.div_lt_of_lt_mul
          omega
        exact ih rs _ hbs2 hrs hdiv x hx2

theorem carryInto_nil_iff (res : List Nat) (c : Nat) :
    carryInto res c = [] ↔ res = [] ∧ c = 0 := by
  cases res with
  | nil => cases c <;> simp [carryInto]
  | cons r rs => cases c <;> simp [carryInto]

theorem mulRow_nil (ai : Nat) (bs res : List Nat) (c : Nat)
    (h : mulRow ai bs res c = []) : bs = [] ∧ res = [] ∧ c = 0 := by
  cases bs with
  | nil =>
    have : carryInto res c = [] := h
    have := (carryInto_nil_iff res c).mp this
    exact ⟨rfl, this.1, this.2⟩
  | cons b bs =>
    exfalso
    cases res <;> simp [mulRow] at h

theorem mulOuter_magVal : ∀ (as bs res : List Nat),
    magVal (mulOuter as bs res) = magVal res + magVal as * magVal bs := by
  intro as
  induction as with
  | nil => intro bs res; simp [mulOuter, magVal]
  | cons a as ih =>
    intro bs res
    show magVal (match mulRow a bs res 0 with
      | [] => []
      | r :: rest => r :: mulOuter as bs rest) = _
    cases h : mulRow a bs res 0 with
    | nil =>
      obtain ⟨hbs, hres, _⟩ := mulRow_nil a bs res 0 h
      subst hbs
      subst hres
      simp [magVal]
    | cons r rest =>
      have hrow : r + W * magVal rest = magVal res + a * magVal bs := by
        have := mulRow_magVal a bs res 0
        rw [h] at this
        simpa [magVal_cons] using this
      calc magVal (r :: mulOuter as bs rest)
          = r + W * (magVal rest + magVal as * magVal bs) := by
            rw [magVal_cons, ih]
        _ = (r + W * magVal rest) + W * (magVal as * magVal bs) := by ring
        _ = magVal res + a * magVal bs + W * (magVal as * magVal bs) := by rw [hrow]
        _ = magVal res + (a + W * magVal as) * magVal bs := by ring
        _ = magVal res + magVal (a :: as) * magVal bs := by rw [magVal_cons]

theorem mulOuter_bounded : ∀ (as bs res : List Nat), BoundedL as → BoundedL bs →
    BoundedL res → BoundedL (mulOuter as bs res) := by
  intro as
  induction as with
  | nil => intro bs res _ _ hres; exact hres
  | cons a as ih =>
    intro bs res has hbs hres
    have ha : a < W := has a (by simp)
    have has2 : BoundedL as := fun d hd => has d (by simp [hd])
    show BoundedL (match mulRow a bs res 0 with
      | [] => []
      | r :: rest => r :: mulOuter as bs rest)
    cases h : mulRow a bs res 0 with
    | nil => intro d hd; simp at hd
    | cons r rest =>
      have hrowb : BoundedL (r :: rest) := by
        rw [← h]
        exact mulRow_bounded a ha bs res 0 hbs hres W_pos
      intro d hd
      rcases List.mem_cons.mp hd with rfl | hd2
      · exact hrowb d (by simp)
      · exact ih bs rest has2 hbs (fun x hx => hrowb x (by simp [hx])) d hd2

theorem mulOuter_ne_nil : ∀ (as bs res : List Nat), res ≠ [] →
    mulOuter as bs res ≠ [] := by
  intro as
  induction as with
  | nil => intro bs res h; exact h
  | cons a as ih =>
    intro bs res h
    show (match mulRow a bs res 0 with
      | [] => []
      | r :: rest => r :: mulOuter as bs rest) ≠ []
    cases hrow : mulRow a bs res 0 with
    | nil =>
      obtain ⟨_, hres, _⟩ := mulRow_nil a bs res 0 hrow
      exact absurd hres h
    | cons r rest => simp

theorem multiplySchoolbook_spec (a b : BigNum) (hab : BoundedL a.digits)
    (hbb : BoundedL b.digits) :
    magVal (multiplySchoolbook a b).digits = magVal a.digits * magVal b.digits ∧
    (multiplySchoolbook a b).negative = false ∧
    (a.digits.length + b.digits.length ≠ 0 → Canon (multiplySchoolbook a b)) := by
  unfold multiplySchoolbook
  refine ⟨?_, rlz_negative_false _, ?_⟩
  · rw [ofVec_magVal, mulOuter_magVal, magVal_replicate_zero]
    omega
  · intro hlen
    apply ofVec_canon
    · apply mulOuter_ne_nil
      intro h
      rw [List.replicate_eq_nil] at h
      omega
    · apply mulOuter_bounded _ _ _ hab hbb
      intro d hd
      rw [List.eq_of_mem_replicate hd]
      exact W_pos

end BigNum

/-! ## Digit-length bounds of the vector operations -/

namespace BigNum

theorem popzRev_length_le (rs : List Nat) : (popzRev rs).length ≤ rs.length := by
  induction rs with
  | nil => simp [popzRev]
  | cons a xs ih =>
    cases xs with
    | nil => simp [popzRev]
    | cons y ys =>
      show (if a = 0 then popzRev (y :: ys) else a :: y :: ys).length ≤ _
      by_cases ha : a = 0
      · rw [if_pos ha]
        calc (popzRev (y :: ys)).length ≤ (y :: ys).length := ih
          _ ≤ (a :: y :: ys).length := by simp
      · rw [if_neg ha]

theorem ofVec_length_le (ds : List Nat) (neg : Bool) :
    (ofVec ds neg).digits.length ≤ ds.length := by
  show (removeLeadingZeros ds neg).digits.length ≤ ds.length
  rw [rlz_digits, List.length_reverse]
  calc (popzRev ds.reverse).length ≤ ds.reverse.length := popzRev_length_le _
    _ = ds.length := List.length_reverse _

theorem ofVec_bounded (ds : List Nat) (neg : Bool) (hb : BoundedL ds) :
    BoundedL (ofVec ds neg).digits := by
  intro x hx
  rw [show (ofVec ds neg).digits = (popzRev ds.reverse).reverse from rlz_digits ds neg]
    at hx
  exact hb x (List.mem_reverse.mp (popzRev_subset _ x (List.mem_reverse.mp hx)))

theorem carryInto_length_le : ∀ (rs : List Nat) (c : Nat),
    (carryInto rs c).length ≤ rs.length + 1 := by
  intro rs
  induction rs with
  | nil =>
    intro c
    cases c with
    | zero => simp [carryInto]
    | succ c => simp [carryInto]
  | cons r rs ih =>
    intro c
    cases c with
    | zero => simp [carryInto]
    | succ c =>
      show ((r + (c + 1)) % W :: carryInto rs ((r + (c + 1)) / W)).length ≤ _
      have := ih ((r + (c + 1)) / W)
      simp only [List.length_cons]
      omega

theorem addWords_length_le : ∀ (a b : List Nat) (c : Nat),
    (addWords a b c).length ≤ max a.length b.length + 1 := by
  intro a
  induction a with
  | nil =>
    intro b c
    show (carryInto b c).length ≤ _
    have := carryInto_length_le b c
    simp only [List.length_nil]
    omega
  | cons x xs ih =>
    intro b c
    cases b with
    | nil =>
      show ((x + c) % W :: addWords xs [] ((x + c) / W)).length ≤ _
      have := ih [] ((x + c) / W)
      simp only [List.length_cons, List.length_nil] at *
      omega
    | cons y ys =>
      show ((x + y + c) % W :: addWords xs ys ((x + y + c) / W)).length ≤ _
      have := ih ys ((x + y + c) / W)
      simp only [List.length_cons] at *
      omega

theorem add_nonneg_length (a b : BigNum) (hna : a.negative = false)
    (hnb : b.negative = false) :
    (add a b).digits.length ≤ max a.digits.length b.digits.length + 1 := by
  unfold add
  rw [hna, hnb]
  simp only [if_pos rfl]
  show (addUnsigned a b).digits.length ≤ _
  unfold addUnsigned
  calc (ofVec (addWords a.digits b.digits 0) false).digits.length
      ≤ (addWords a.digits b.digits 0).length := ofVec_length_le _ _
    _ ≤ max a.digits.length b.digits.length + 1 := addWords_length_le _ _ _

end BigNum

/-! ## The shift-up loop of divideUnsigned -/

namespace BigNum

theorem toInt_ofInt_zero : toInt (ofInt 0) = 0 := rfl

theorem magVal_one_digits : magVal one.digits = 1 := rfl

theorem one_negative : one.negative = false := rfl

theorem isZero_false_of_ne (b : BigNum) (hb : MCanon b) (hbz : magVal b.digits ≠ 0) :
    isZero b = false := by
  rw [← Bool.not_eq_true, isZero_iff]
  intro h
  exact hbz ((mcanon_magVal_zero_iff b hb).mpr h)

theorem divShiftLoop_ok : ∀ (f : Nat) (temp rem : BigNum) (s : Nat),
    Canon temp → temp.negative = false → Canon rem → rem.negative = false →
    0 < toInt temp → toInt rem < toInt temp * 2 ^ f →
    ∃ d t', divShiftLoop (f + 1) temp rem s = .ok (t', s + d) ∧
      Canon t' ∧ t'.negative = false ∧
      toInt t' = toInt temp * 2 ^ d ∧ toInt rem < toInt t' ∧
      (toInt temp ≤ toInt rem → 1 ≤ d) := by
  intro f
  induction f with
  | zero =>
    intro temp rem s hct hnt hcr hnr hpos hlt
    simp only [pow_zero, mul_one] at hlt
    refine ⟨0, temp, ?_, hct, hnt, by simp, hlt, fun h => absurd h (by omega)⟩
    show (if compare temp rem ≤ 0 then divShiftLoop 0 (shl temp 1) rem (s + 1)
      else pure (temp, s)) = _
    rw [if_neg (by rw [compare_le_iff temp rem hct hcr]; omega)]
    rfl
  | succ f ih =>
    intro temp rem s hct hnt hcr hnr hpos hlt
    by_cases hc : compare temp rem ≤ 0
    · obtain ⟨hshm, hshv, hshs⟩ := shl_spec temp 1 hct.1
      have hshc : Canon (shl temp 1) := shl_canon _ _ hct
      have hshn : (shl temp 1).negative = false := hshs hnt
      have hshvi : toInt (shl temp 1) = toInt temp * 2 := by
        rw [toInt_eq_magVal _ hshn, hshv, toInt_eq_magVal _ hnt]
        push_cast
        ring
      have hpos2 : 0 < toInt (shl temp 1) := by rw [hshvi]; omega
      have hlt2 : toInt rem < toInt (shl temp 1) * 2 ^ f := by
        rw [hshvi]
        have hr : toInt temp * 2 * 2 ^ f = toInt temp * 2 ^ (f + 1) := by ring
        rw [hr]
        exact hlt
      obtain ⟨d, t', hrun, hc1, hc2, hc3, hc4, _⟩ :=
        ih (shl temp 1) rem (s + 1) hshc hshn hcr hnr hpos2 hlt2
      rw [show s + 1 + d = s + (d + 1) from by omega] at hrun
      refine ⟨d + 1, t', ?_, hc1, hc2, ?_, hc4, fun _ => by omega⟩
      · show (if compare temp rem ≤ 0 then divShiftLoop (f + 1) (shl temp 1) rem (s + 1)
          else pure (temp, s)) = _
        rw [if_pos hc]
        exact hrun
      · rw [hc3, hshvi]
        ring
    · refine ⟨0, temp, ?_, hct, hnt, by simp, ?_, ?_⟩
      · show (if compare temp rem ≤ 0 then divShiftLoop (f + 1) (shl temp 1) rem (s + 1)
          else pure (temp, s)) = _
        rw [if_neg hc]
        rfl
      · rw [compare_le_iff temp rem hct hcr] at hc
        omega
      · intro h
        rw [compare_le_iff temp rem hct hcr] at hc
        exact absurd h hc

end BigNum


/-! ## Sign and canonicity helpers -/

namespace BigNum

theorem toInt_zero : toInt zero = 0 := rfl

theorem toInt_one : toInt one = 1 := rfl

theorem toInt_eq_zero_iff (a : BigNum) : toInt a = 0 ↔ magVal a.digits = 0 := by
  unfold toInt
  cases h : a.negative <;> simp

theorem canon_nonneg_flag (x : BigNum) (hx : Canon x) (h : 0 ≤ toInt x) :
    x.negative = false := by
  cases hn : x.negative
  · rfl
  · have hv : toInt x = -(magVal x.digits : ℤ) := by
      unfold toInt
      rw [hn]
      simp
    have hm0 : magVal x.digits = 0 := by omega
    have := hx.2 hm0
    rw [hn] at this
    exact this

theorem mcanon_pos_flag (x : BigNum) (hx : MCanon x) (h : 0 < toInt x) :
    Canon x ∧ x.negative = false := by
  have hnf : x.negative = false := by
    cases hn : x.negative
    · rfl
    · have hv : toInt x = -(magVal x.digits : ℤ) := by
        unfold toInt
        rw [hn]
        simp
      omega
  exact ⟨⟨hx, fun _ => hnf⟩, hnf⟩

theorem isZero_toInt_iff (r : BigNum) (hr : MCanon r) :
    isZero r = true ↔ toInt r = 0 := by
  rw [isZero_iff, ← mcanon_magVal_zero_iff r hr]
  exact (toInt_eq_zero_iff r).symm

theorem isOne_toInt_iff (g : BigNum) (hg : Canon g) :
    isOne g = true ↔ toInt g = 1 := by
  constructor
  · intro h
    simp [isOne] at h
    rw [toInt_eq_magVal _ h.1, h.2]
    norm_num [magVal_cons, magVal_nil]
  · intro h
    have hone : g = one := canon_toInt_inj g one hg canon_one (h.trans toInt_one.symm)
    rw [hone]
    decide

theorem isNegative_toInt_iff (x : BigNum) (hx : Canon x) :
    isNegative x = true ↔ toInt x < 0 := by
  constructor
  · intro h
    simp [isNegative] at h
    have hmz : magVal x.digits ≠ 0 := by
      intro hm
      have hd := (mcanon_magVal_zero_iff x hx.1).mp hm
      rw [← isZero_iff] at hd
      rw [h.2] at hd
      exact Bool.false_ne_true hd
    have hv : toInt x = -(magVal x.digits : ℤ) := by
      unfold toInt
      rw [h.1]
      simp
    omega
  · intro h
    have hn : x.negative = true := by
      cases hn : x.negative
      · rw [toInt_eq_magVal _ hn] at h
        omega
      · rfl
    have hmz : magVal x.digits ≠ 0 := by
      intro hm
      rw [(toInt_eq_zero_iff x).mpr hm] at h
      omega
    have hiz : isZero x = false := by
      rw [← Bool.not_eq_true, isZero_iff]
      intro hd
      exact hmz ((mcanon_magVal_zero_iff x hx.1).mpr hd)
    simp [isNegative, hn, hiz]

end BigNum




/-! ## Error classification: only the modPow guard raises InvalidModulus -/

namespace BigNum

theorem pure_ne_err {β : Type} (v : β) (e : BigErr) :
    (pure v : Except BigErr β) ≠ .error e := fun hc => Except.noConfusion hc

theorem throw_ne_err {β : Type} {e1 e2 : BigErr} (h : e1 ≠ e2) :
    (throw e1 : Except BigErr β) ≠ .error e2 := fun hc => h (Except.error.inj hc)

theorem ite_ne_err {β : Type} {c : Prop} [Decidable c] {x y : Except BigErr β}
    {e : BigErr} (hx : x ≠ .error e) (hy : y ≠ .error e) :
    (if c then x else y) ≠ .error e := by
  by_cases h : c
  · rw [if_pos h]; exact hx
  · rw [if_neg h]; exact hy

theorem throw_bind_ne {α β : Type} {e1 e2 : BigErr} (g : α → Except BigErr β)
    (h : e1 ≠ e2) : ((throw e1 : Except BigErr α) >>= g) ≠ .error e2 :=
  fun hc => h (Except.error.inj hc)

theorem bind_ne_err {α β : Type} {x : Except BigErr α} {g : α → Except BigErr β}
    {e : BigErr} (hx : x ≠ .error e) (hg : ∀ v, g v ≠ .error e) :
    (x >>= g) ≠ .error e := by
  cases x with
  | error err =>
    intro h
    apply hx
    have h2 : (Except.error err : Except BigErr β) = .error e := h
    rw [Except.error.inj h2]
  | ok v => exact hg v

theorem divShiftLoop_ne_invmod : ∀ (f : Nat) (t r : BigNum) (s : Nat),
    divShiftLoop f t r s ≠ .error .invalidModulus := by
  intro f
  induction f with
  | zero =>
    intro t r s
    exact throw_ne_err (by decide)
  | succ f ih =>
    intro t r s
    show (if compare t r ≤ 0 then divShiftLoop f (shl t 1) r (s + 1)
      else pure (t, s)) ≠ _
    exact ite_ne_err (ih _ _ _) (pure_ne_err _ _)

theorem divideUnsigned_ne_invmod (a b : BigNum) :
    divideUnsigned a b ≠ .error .invalidModulus := by
  unfold divideUnsigned
  apply ite_ne_err (throw_ne_err (by decide))
  apply ite_ne_err (pure_ne_err _ _)
  exact bind_ne_err (divShiftLoop_ne_invmod _ _ _ _) (fun p => pure_ne_err _ _)

theorem div_ne_invmod (a b : BigNum) : div a b ≠ .error .invalidModulus := by
  unfold div
  exact bind_ne_err (divideUnsigned_ne_invmod a b) (fun p => pure_ne_err _ _)

theorem mod_ne_invmod (a b : BigNum) : mod a b ≠ .error .invalidModulus := by
  unfold mod
  exact bind_ne_err (divideUnsigned_ne_invmod a b) (fun p => pure_ne_err _ _)

theorem extGcdLoop_ne_invmod : ∀ (f : Nat) (or0 r os s ot t : BigNum),
    extGcdLoop f or0 r os s ot t ≠ .error .invalidModulus := by
  intro f
  induction f with
  | zero =>
    intro or0 r os s ot t
    show (if isZero r = true then pure (or0, os, ot)
      else (throw BigErr.outOfFuel : Except BigErr (BigNum × BigNum × BigNum))) ≠
      Except.error BigErr.invalidModulus
    exact ite_ne_err (pure_ne_err _ _) (throw_ne_err (by decide))
  | succ f ih =>
    intro or0 r os s ot t
    show (if isZero r = true then pure (or0, os, ot) else
      (div or0 r >>= fun q => extGcdLoop f r (sub or0 (mul q r)) s
        (sub os (mul q s)) t (sub ot (mul q t)))) ≠ _
    exact ite_ne_err (pure_ne_err _ _)
      (bind_ne_err (div_ne_invmod _ _) (fun q => ih _ _ _ _ _ _))

theorem extendedGcd_ne_invmod (a b : BigNum) :
    extendedGcd a b ≠ .error .invalidModulus := by
  simp only [extendedGcd]
  exact bind_ne_err (extGcdLoop_ne_invmod _ _ _ _ _ _ _) (fun res => pure_ne_err _ _)

theorem montMake_ne_invmod (m : BigNum) :
    MontgomeryContext.make m ≠ .error .invalidModulus := by
  simp only [MontgomeryContext.make]
  apply ite_ne_err (throw_bind_ne _ (by decide))
  apply bind_ne_err (pure_ne_err _ _)
  intro u
  apply bind_ne_err (extendedGcd_ne_invmod _ _)
  intro g1
  apply ite_ne_err (throw_bind_ne _ (by decide))
  apply bind_ne_err (pure_ne_err _ _)
  intro u2
  apply bind_ne_err (extendedGcd_ne_invmod _ _)
  intro g2
  apply ite_ne_err (throw_bind_ne _ (by decide))
  apply bind_ne_err (pure_ne_err _ _)
  intro u3
  exact pure_ne_err _ _

theorem toMontgomery_ne_invmod (ctx : MontgomeryContext) (a : BigNum) :
    ctx.toMontgomery a ≠ .error .invalidModulus := by
  unfold MontgomeryContext.toMontgomery
  exact mod_ne_invmod _ _

theorem montLoop_ne_invmod (ctx : MontgomeryContext) : ∀ (f : Nat) (e res base : BigNum),
    montLoop ctx f e res base ≠ .error .invalidModulus := by
  intro f
  induction f with
  | zero =>
    intro e res base
    rw [montLoop]
    apply ite_ne_err (pure_ne_err _ _)
    exact throw_ne_err (by decide)
  | succ f ih =>
    intro e res base
    rw [montLoop]
    apply ite_ne_err (pure_ne_err _ _)
    exact ih _ _ _

theorem montBody_ne_invmod (a e n : BigNum) :
    montBody a e n ≠ .error .invalidModulus := by
  unfold montBody
  apply bind_ne_err (montMake_ne_invmod n)
  intro ctx
  apply bind_ne_err (mod_ne_invmod _ _)
  intro am
  apply bind_ne_err (toMontgomery_ne_invmod _ _)
  intro bm
  apply bind_ne_err (toMontgomery_ne_invmod _ _)
  intro rm
  apply bind_ne_err (montLoop_ne_invmod _ _ _ _ _)
  intro res
  exact pure_ne_err _ _

theorem barrettMake_ne_invmod (m : BigNum) :
    BarrettContext.make m ≠ .error .invalidModulus := by
  simp only [BarrettContext.make]
  apply ite_ne_err (throw_bind_ne _ (by decide))
  apply bind_ne_err (pure_ne_err _ _)
  intro u
  apply bind_ne_err (div_ne_invmod _ _)
  intro mu
  exact pure_ne_err _ _

theorem barrettFinal_ne_invmod : ∀ (f : Nat) (r n : BigNum),
    barrettFinal f r n ≠ .error .invalidModulus := by
  intro f
  induction f with
  | zero =>
    intro r n
    exact throw_ne_err (by decide)
  | succ f ih =>
    intro r n
    show (if 0 ≤ compare r n then barrettFinal f (sub r n) n else pure r) ≠ _
    exact ite_ne_err (ih _ _) (pure_ne_err _ _)

theorem barrettReduce_ne_invmod (ctx : BarrettContext) (a : BigNum) :
    ctx.reduce a ≠ .error .invalidModulus := by
  unfold BarrettContext.reduce
  apply ite_ne_err (pure_ne_err _ _)
  apply ite_ne_err (mod_ne_invmod _ _)
  exact barrettFinal_ne_invmod _ _ _

theorem plainLoop_ne_invmod (n : BigNum) : ∀ (f : Nat) (e res base : BigNum),
    plainLoop n f e res base ≠ .error .invalidModulus := by
  intro f
  induction f with
  | zero =>
    intro e res base
    rw [plainLoop]
    apply ite_ne_err (pure_ne_err _ _)
    exact throw_ne_err (by decide)
  | succ f ih =>
    intro e res base
    rw [plainLoop]
    apply ite_ne_err (pure_ne_err _ _)
    apply ite_ne_err
    · apply bind_ne_err (mod_ne_invmod _ _)
      intro res2
      apply bind_ne_err (mod_ne_invmod _ _)
      intro base2
      exact ih _ _ _
    · apply bind_ne_err (pure_ne_err _ _)
      intro res2
      apply bind_ne_err (mod_ne_invmod _ _)
      intro base2
      exact ih _ _ _

theorem barrettLoop_ne_invmod (ctx : BarrettContext) : ∀ (f : Nat) (e res base : BigNum),
    barrettLoop ctx f e res base ≠ .error .invalidModulus := by
  intro f
  induction f with
  | zero =>
    intro e res base
    rw [barrettLoop]
    apply ite_ne_err (pure_ne_err _ _)
    exact throw_ne_err (by decide)
  | succ f ih =>
    intro e res base
    rw [barrettLoop]
    apply ite_ne_err (pure_ne_err _ _)
    apply ite_ne_err
    · apply bind_ne_err (barrettReduce_ne_invmod _ _)
      intro res2
      apply bind_ne_err (barrettReduce_ne_invmod _ _)
      intro base2
      exact ih _ _ _
    · apply bind_ne_err (pure_ne_err _ _)
      intro res2
      apply bind_ne_err (barrettReduce_ne_invmod _ _)
      intro base2
      exact ih _ _ _

theorem modPowBinary_ne_invmod (a e n : BigNum) :
    modPowBinary a e n ≠ .error .invalidModulus := by
  unfold modPowBinary
  apply bind_ne_err (mod_ne_invmod a n)
  intro base
  apply ite_ne_err
  · cases hm : BarrettContext.make n with
    | error err =>
      exact ite_ne_err (throw_ne_err (by decide)) (plainLoop_ne_invmod _ _ _ _ _)
    | ok ctx => exact barrettLoop_ne_invmod _ _ _ _ _
  · exact plainLoop_ne_invmod _ _ _ _ _

theorem modPowMontgomery_ne_invmod (a e n : BigNum) :
    modPowMontgomery a e n ≠ .error .invalidModulus := by
  unfold modPowMontgomery
  cases hm : montBody a e n with
  | ok v => exact pure_ne_err _ _
  | error err =>
    exact ite_ne_err (throw_ne_err (by decide)) (modPowBinary_ne_invmod _ _ _)

theorem modPow_guards (a e n : BigNum) :
    (modPow a e n = .error .invalidModulus ↔ isZero n = true) ∧
    (isZero n = false → isZero e = true → modPow a e n = .ok one) ∧
    (isZero n = false → isZero e = false → isOne n = true → modPow a e n = .ok zero) := by
  refine ⟨⟨?_, ?_⟩, ?_, ?_⟩
  · intro h
    by_contra hne
    have hz : isZero n = false := by
      cases hzz : isZero n
      · rfl
      · exact absurd hzz hne
    unfold modPow at h
    rw [if_neg (by simp [hz])] at h
    have hok : (if isZero e = true then pure one else
        if isOne n = true then pure zero else
        if 4 ≤ n.digits.length ∧ isOdd n = true then modPowMontgomery a e n
        else modPowBinary a e n) ≠ .error .invalidModulus := by
      apply ite_ne_err (pure_ne_err _ _)
      apply ite_ne_err (pure_ne_err _ _)
      exact ite_ne_err (modPowMontgomery_ne_invmod _ _ _) (modPowBinary_ne_invmod _ _ _)
    exact hok h
  · intro h
    unfold modPow
    rw [if_pos h]
    rfl
  · intro h1 h2
    unfold modPow
    rw [if_neg (by simp [h1]), if_pos h2]
    rfl
  · intro h1 h2 h3
    unfold modPow
    rw [if_neg (by simp [h1]), if_neg (by simp [h2]), if_pos h3]
    rfl

end BigNum

/-! ## Hex codec: acceptance characterization -/

namespace BigNum

theorem specHexDigit_iff (c : Char) : specHexDigit c = true ↔
    (('0' ≤ c ∧ c ≤ '9') ∨ ('a' ≤ c ∧ c ≤ 'f') ∨ ('A' ≤ c ∧ c ≤ 'F')) := by
  unfold specHexDigit
  simp [Bool.or_eq_true, Bool.and_eq_true, decide_eq_true_eq, or_assoc]

theorem parseHexChunk_cases : ∀ (cs : List Char) (v : Nat),
    (cs.all specHexDigit = true ∧ ∃ w, parseHexChunk cs v = .ok w) ∨
    (cs.all specHexDigit = false ∧ parseHexChunk cs v = .error .invalidHex) := by
  intro cs
  induction cs with
  | nil =>
    intro v
    left
    exact ⟨rfl, v, rfl⟩
  | cons c cs ih =>
    intro v
    have hstep : parseHexChunk (c :: cs) v =
        (if '0' ≤ c ∧ c ≤ '9' then parseHexChunk cs ((v * 16) % W + (c.toNat - '0'.toNat))
        else if 'a' ≤ c ∧ c ≤ 'f' then
          parseHexChunk cs ((v * 16) % W + (c.toNat - 'a'.toNat + 10))
        else if 'A' ≤ c ∧ c ≤ 'F' then
          parseHexChunk cs ((v * 16) % W + (c.toNat - 'A'.toNat + 10))
        else throw .invalidHex) := rfl
    rw [hstep]
    by_cases h1 : '0' ≤ c ∧ c ≤ '9'
    · rw [if_pos h1]
      have hx : specHexDigit c = true := (specHexDigit_iff c).mpr (Or.inl h1)
      rcases ih ((v * 16) % W + (c.toNat - '0'.toNat)) with ⟨ha, w, hw⟩ | ⟨ha, hw⟩
      · exact Or.inl ⟨by simp [List.all_cons, hx, ha], w, hw⟩
      · exact Or.inr ⟨by simp [List.all_cons, ha], hw⟩
    · rw [if_neg h1]
      by_cases h2 : 'a' ≤ c ∧ c ≤ 'f'
      · rw [if_pos h2]
        have hx : specHexDigit c = true := (specHexDigit_iff c).mpr (Or.inr (Or.inl h2))
        rcases ih ((v * 16) % W + (c.toNat - 'a'.toNat + 10)) with ⟨ha, w, hw⟩ | ⟨ha, hw⟩
        · exact Or.inl ⟨by simp [List.all_cons, hx, ha], w, hw⟩
        · exact Or.inr ⟨by simp [List.all_cons, ha], hw⟩
      · rw [if_neg h2]
        by_cases h3 : 'A' ≤ c ∧ c ≤ 'F'
        · rw [if_pos h3]
          have hx : specHexDigit c = true := (specHexDigit_iff c).mpr (Or.inr (Or.inr h3))
          rcases ih ((v * 16) % W + (c.toNat - 'A'.toNat + 10)) with ⟨ha, w, hw⟩ | ⟨ha, hw⟩
          · exact Or.inl ⟨by simp [List.all_cons, hx, ha], w, hw⟩
          · exact Or.inr ⟨by simp [List.all_cons, ha], hw⟩
        · rw [if_neg h3]
          have hx : specHexDigit c = false := by
            rw [← Bool.not_eq_true, specHexDigit_iff]
            intro hor
            rcases hor with h | h | h
            exacts [h1 h, h2 h, h3 h]
          exact Or.inr ⟨by simp [List.all_cons, hx], rfl⟩

theorem hexChunksF_cases : ∀ (f : Nat) (s : List Char), s.length ≤ f →
    (s.all specHexDigit = true ∧ ∃ ds, hexChunksF f s = .ok ds) ∨
    (s.all specHexDigit = false ∧ hexChunksF f s = .error .invalidHex) := by
  intro f
  induction f with
  | zero =>
    intro s hl
    have hs : s = [] := List.length_eq_zero.mp (Nat.le_zero.mp hl)
    subst hs
    left
    exact ⟨rfl, [], rfl⟩
  | succ f ih =>
    intro s hl
    cases s with
    | nil =>
      left
      exact ⟨rfl, [], rfl⟩
    | cons c cs =>
      have hstep : hexChunksF (f + 1) (c :: cs) =
          (parseHexChunk ((c :: cs).drop ((c :: cs).length - 16)) 0) >>= fun w =>
            (hexChunksF f ((c :: cs).take ((c :: cs).length - 16))) >>= fun rest =>
              pure (w :: rest) := rfl
      rw [hstep]
      set cut := (c :: cs).length - 16 with hcut
      have hsplit : (c :: cs).take cut ++ (c :: cs).drop cut = c :: cs :=
        List.take_append_drop cut (c :: cs)
      have hall : (c :: cs).all specHexDigit =
          (((c :: cs).take cut).all specHexDigit &&
            ((c :: cs).drop cut).all specHexDigit) := by
        conv_lhs => rw [← hsplit]
        rw [List.all_append]
      rcases parseHexChunk_cases ((c :: cs).drop cut) 0 with ⟨ha1, w, hw⟩ | ⟨ha1, hw⟩
      · rw [hw]
        have hlc : (c :: cs).length = cs.length + 1 := rfl
        have hlen2 : ((c :: cs).take cut).length ≤ f := by
          rw [List.length_take]
          omega
        rcases ih ((c :: cs).take cut) hlen2 with ⟨ha2, ds, hds⟩ | ⟨ha2, hds⟩
        · left
          refine ⟨by rw [hall, ha1, ha2]; rfl, w :: ds, ?_⟩
          show (hexChunksF f ((c :: cs).take cut)) >>= (fun rest => pure (w :: rest)) = _
          rw [hds]
          rfl
        · right
          refine ⟨by rw [hall, ha2]; rfl, ?_⟩
          show (hexChunksF f ((c :: cs).take cut)) >>= (fun rest => pure (w :: rest)) = _
          rw [hds]
          rfl
      · right
        rw [hw]
        refine ⟨by rw [hall, ha1]; simp, rfl⟩

theorem hexTail_spec (s2 : List Char) (sign : Bool) :
    (s2.all specHexDigit = true → ∃ b, (if s2 = [] then pure (ofInt 0)
      else hexChunks s2 >>= fun ds => pure (ofVec ds sign)) = Except.ok b) ∧
    (s2.all specHexDigit = false → (if s2 = [] then pure (ofInt 0)
      else hexChunks s2 >>= fun ds => pure (ofVec ds sign)) =
        Except.error BigErr.invalidHex) := by
  by_cases h2 : s2 = []
  · subst h2
    constructor
    · intro _
      exact ⟨ofInt 0, by rw [if_pos rfl]; rfl⟩
    · intro h
      cases h
  · rw [if_neg h2]
    constructor
    · intro hall
      rcases hexChunksF_cases s2.length s2 le_rfl with ⟨_, ds, hds⟩ | ⟨ha, _⟩
      · refine ⟨ofVec ds sign, ?_⟩
        show hexChunksF s2.length s2 >>= _ = _
        rw [hds]
        rfl
      · rw [hall] at ha
        cases ha
    · intro hall
      rcases hexChunksF_cases s2.length s2 le_rfl with ⟨ha, _, _⟩ | ⟨_, hds⟩
      · rw [hall] at ha
        cases ha
      · show hexChunksF s2.length s2 >>= _ = _
        rw [hds]
        rfl

end BigNum

namespace BigNum

theorem fromHexString_eq_tail (s : List Char) (hs : s ≠ []) :
    ∃ sign s2, fromHexString s = (if s2 = [] then pure (ofInt 0)
        else hexChunks s2 >>= fun ds => pure (ofVec ds sign)) ∧
      acceptedHex s = s2.all specHexDigit := by
  by_cases hm : s.headD ' ' = '-'
  · by_cases hp : 2 ≤ (s.drop 1).length ∧ (s.drop 1).take 2 = ['0', 'x']
    · refine ⟨true, (s.drop 1).drop 2, ?_, ?_⟩
      · conv_lhs => rw [fromHexString]
        rw [if_neg hs, if_pos hm]
        show (if (if 2 ≤ (s.drop 1).length ∧ (s.drop 1).take 2 = ['0', 'x']
            then (s.drop 1).drop 2 else s.drop 1) = [] then pure (ofInt 0)
          else hexChunks (if 2 ≤ (s.drop 1).length ∧ (s.drop 1).take 2 = ['0', 'x']
            then (s.drop 1).drop 2 else s.drop 1) >>= fun ds => pure (ofVec ds true)) = _
        rw [if_pos hp]
      · conv_lhs => rw [acceptedHex]
        rw [if_neg hs, if_pos hm]
        show (if 2 ≤ (s.drop 1).length ∧ (s.drop 1).take 2 = ['0', 'x']
          then (s.drop 1).drop 2 else s.drop 1).all specHexDigit = _
        rw [if_pos hp]
    · refine ⟨true, s.drop 1, ?_, ?_⟩
      · conv_lhs => rw [fromHexString]
        rw [if_neg hs, if_pos hm]
        show (if (if 2 ≤ (s.drop 1).length ∧ (s.drop 1).take 2 = ['0', 'x']
            then (s.drop 1).drop 2 else s.drop 1) = [] then pure (ofInt 0)
          else hexChunks (if 2 ≤ (s.drop 1).length ∧ (s.drop 1).take 2 = ['0', 'x']
            then (s.drop 1).drop 2 else s.drop 1) >>= fun ds => pure (ofVec ds true)) = _
        rw [if_neg hp]
      · conv_lhs => rw [acceptedHex]
        rw [if_neg hs, if_pos hm]
        show (if 2 ≤ (s.drop 1).length ∧ (s.drop 1).take 2 = ['0', 'x']
          then (s.drop 1).drop 2 else s.drop 1).all specHexDigit = _
        rw [if_neg hp]
  · by_cases hp : 2 ≤ s.length ∧ s.take 2 = ['0', 'x']
    · refine ⟨false, s.drop 2, ?_, ?_⟩
      · conv_lhs => rw [fromHexString]
        rw [if_neg hs, if_neg hm]
        show (if (if 2 ≤ s.length ∧ s.take 2 = ['0', 'x']
            then s.drop 2 else s) = [] then pure (ofInt 0)
          else hexChunks (if 2 ≤ s.length ∧ s.take 2 = ['0', 'x']
            then s.drop 2 else s) >>= fun ds => pure (ofVec ds false)) = _
        rw [if_pos hp]
      · conv_lhs => rw [acceptedHex]
        rw [if_neg hs, if_neg hm]
        show (if 2 ≤ s.length ∧ s.take 2 = ['0', 'x']
          then s.drop 2 else s).all specHexDigit = _
        rw [if_pos hp]
    · refine ⟨false, s, ?_, ?_⟩
      · conv_lhs => rw [fromHexString]
        rw [if_neg hs, if_neg hm]
        show (if (if 2 ≤ s.length ∧ s.take 2 = ['0', 'x']
            then s.drop 2 else s) = [] then pure (ofInt 0)
          else hexChunks (if 2 ≤ s.length ∧ s.take 2 = ['0', 'x']
            then s.drop 2 else s) >>= fun ds => pure (ofVec ds false)) = _
        rw [if_neg hp]
      · conv_lhs => rw [acceptedHex]
        rw [if_neg hs, if_neg hm]
        show (if 2 ≤ s.length ∧ s.take 2 = ['0', 'x']
          then s.drop 2 else s).all specHexDigit = _
        rw [if_neg hp]

theorem fromHexString_spec (s : List Char) :
    ((∃ b, fromHexString s = .ok b) ↔ acceptedHex s = true) ∧
    (acceptedHex s = false → fromHexString s = .error .invalidHex) := by
  by_cases hs : s = []
  · subst hs
    refine ⟨⟨fun _ => rfl, fun _ => ⟨ofInt 0, rfl⟩⟩, fun h => ?_⟩
    exact absurd h (by decide)
  · obtain ⟨sign, s2, hfx, hax⟩ := fromHexString_eq_tail s hs
    have ht := hexTail_spec s2 sign
    rw [hfx, hax]
    constructor
    · constructor
      · intro hex
        cases hacc : s2.all specHexDigit
        · obtain ⟨b, hb⟩ := hex
          rw [ht.2 hacc] at hb
          cases hb
        · rfl
      · exact ht.1
    · exact ht.2

end BigNum

/-! ## toInt64: exact 64-bit signed range -/

namespace BigNum

theorem toInt64_spec (a : BigNum) (ha : Canon a) :
    (-(2 ^ 63) ≤ toInt a → toInt a < 2 ^ 63 → toInt64 a = .ok (toInt a)) ∧
    ((toInt a < -(2 ^ 63) ∨ 2 ^ 63 ≤ toInt a) → toInt64 a = .error .overflowToInt64) := by
  obtain ⟨⟨hne, hb, hc⟩, hz⟩ := ha
  have hlit : (2:ℕ) ^ 63 = 9223372036854775808 := by norm_num
  have hliti : (2:ℤ) ^ 63 = 9223372036854775808 := by norm_num
  by_cases hl : 1 < a.digits.length
  · have herr : toInt64 a = .error .overflowToInt64 := by
      unfold toInt64
      rw [if_pos hl]
      rfl
    have hmag : W ≤ magVal a.digits := by
      have hlast : a.digits.getLastD 0 ≠ 0 := by
        rcases hc with h1 | h1
        · omega
        · exact h1
      have hle := magVal_getLast_le a.digits hne
      have h1 : 1 ≤ a.digits.getLastD 0 := Nat.one_le_iff_ne_zero.mpr hlast
      have h2 : W ^ 1 ≤ W ^ (a.digits.length - 1) :=
        Nat.pow_le_pow_right W_pos (by omega)
      calc W = 1 * W ^ 1 := by ring
        _ ≤ a.digits.getLastD 0 * W ^ (a.digits.length - 1) := Nat.mul_le_mul h1 h2
        _ ≤ magVal a.digits := hle
    have habs : (9223372036854775808 : ℕ) < magVal a.digits := by
      rw [W_lit] at hmag
      omega
    have hcast : (9223372036854775808 : ℤ) < (magVal a.digits : ℤ) := by
      exact_mod_cast habs
    constructor
    · intro h1 h2
      exfalso
      unfold toInt at h1 h2
      rw [hliti] at h1 h2
      cases hn : a.negative
      · rw [hn] at h2
        simp at h2
        omega
      · rw [hn] at h1
        simp at h1
        omega
    · intro _
      exact herr
  · have hl1 : a.digits.length = 1 := by
      have := List.length_pos.mpr hne
      omega
    obtain ⟨d, hd⟩ : ∃ d, a.digits = [d] := by
      cases hds : a.digits with
      | nil => exact absurd hds hne
      | cons x xs =>
        cases xs with
        | nil => exact ⟨x, rfl⟩
        | cons y ys => rw [hds] at hl1; simp at hl1
    have hmagd : magVal a.digits = d := by rw [hd]; simp [magVal]
    have hhead : a.digits.headD 0 = d := by rw [hd]; rfl
    by_cases hdz : d = 0
    · have hneg : a.negative = false := hz (by rw [hmagd, hdz])
      have haz : a = ⟨[0], false⟩ := by
        have heta : a = ⟨a.digits, a.negative⟩ := rfl
        rw [heta, hd, hdz, hneg]
      have hti : toInt a = 0 := by
        rw [haz]
        rfl
      constructor
      · intro _ _
        rw [hti, haz]
        decide
      · intro hout
        exfalso
        rw [hti, hliti] at hout
        rcases hout with h | h <;> omega
    · have hizf : isZero a = false := by
        rw [← Bool.not_eq_true, isZero_iff, hd]
        simp [hdz]
      cases hn : a.negative
      · have hvi : toInt a = (d : ℤ) := by
          rw [toInt_eq_magVal a hn, hmagd]
        have hnegf : isNegative a = false := by simp [isNegative, hn]
        have hstep : toInt64 a = (if 2 ^ 63 - 1 < d then throw .overflowToInt64
            else pure (d : Int)) := by
          unfold toInt64
          rw [if_neg hl, if_neg (by simp [hizf])]
          show (if (!(isNegative a)) = true then
              (if 2 ^ 63 - 1 < a.digits.headD 0 then
                (throw BigErr.overflowToInt64 : Except BigErr Int)
               else pure ((a.digits.headD 0 : Nat) : Int))
            else (if 2 ^ 63 < a.digits.headD 0 then
                (throw BigErr.overflowToInt64 : Except BigErr Int)
               else pure (-((a.digits.headD 0 : Nat) : Int)))) =
            (if 2 ^ 63 - 1 < d then (throw BigErr.overflowToInt64 : Except BigErr Int)
             else pure (d : Int))
          rw [hnegf, hhead]
          rw [show (!false) = true from rfl, if_pos rfl]
        constructor
        · intro _ h2
          rw [hvi, hliti] at h2
          have hdlt : d < 9223372036854775808 := by exact_mod_cast h2
          rw [hstep, if_neg (by omega), hvi]
          rfl
        · intro hout
          rcases hout with h | h
          · exfalso
            rw [hvi, hliti] at h
            have := Int.natCast_nonneg d
            omega
          · rw [hvi, hliti] at h
            have hdge : 9223372036854775808 ≤ d := by exact_mod_cast h
            rw [hstep, if_pos (by omega)]
            rfl
      · have hvi : toInt a = -(d : ℤ) := by
          unfold toInt
          rw [hn, hmagd]
          simp
        have hnegt : isNegative a = true := by simp [isNegative, hn, hizf]
        have hstep : toInt64 a = (if 2 ^ 63 < d then throw .overflowToInt64
            else pure (-(d : Int))) := by
          unfold toInt64
          rw [if_neg hl, if_neg (by simp [hizf])]
          show (if (!(isNegative a)) = true then
              (if 2 ^ 63 - 1 < a.digits.headD 0 then
                (throw BigErr.overflowToInt64 : Except BigErr Int)
               else pure ((a.digits.headD 0 : Nat) : Int))
            else (if 2 ^ 63 < a.digits.headD 0 then
                (throw BigErr.overflowToInt64 : Except BigErr Int)
               else pure (-((a.digits.headD 0 : Nat) : Int)))) =
            (if 2 ^ 63 < d then (throw BigErr.overflowToInt64 : Except BigErr Int)
             else pure (-(d : Int)))
          rw [hnegt, hhead]
          rw [show (!true) = false from rfl, if_neg (by simp)]
        constructor
        · intro h1 _
          rw [hvi, hliti] at h1
          have hdle : d ≤ 9223372036854775808 := by
            have : (d : ℤ) ≤ 9223372036854775808 := by omega
            exact_mod_cast this
          rw [hstep, if_neg (by omega), hvi]
          rfl
        · intro hout
          rcases hout with h | h
          · rw [hvi, hliti] at h
            have hdgt : 9223372036854775808 < d := by
              have : (9223372036854775808 : ℤ) < (d : ℤ) := by omega
              exact_mod_cast this
            rw [hstep, if_pos (by omega)]
            rfl
          · exfalso
            rw [hvi, hliti] at h
            have := Int.natCast_nonneg d
            omega

end BigNum

/-! ## Claim theorems -/

namespace BigNum

set_option maxRecDepth 100000 in
set_option maxHeartbeats 4000000 in
/-- C1: the canonical-form invariant fails: adding values with opposite
signs and equal magnitude returns a negative zero, because operator+
assigns the sign flag after normalization.  At (-5) + 5 the result is
the digit vector [0] with the negative flag set, which is not canonical. -/
theorem claim_C1_negative_zero_from_add :
    add (ofInt (-5)) (ofInt 5) = ⟨[0], true⟩ ∧
    ¬ Canon (add (ofInt (-5)) (ofInt 5)) := by
  decide

set_option maxRecDepth 100000 in
set_option maxHeartbeats 16000000 in
/-- C2: the division contract fails for a negative dividend: divideUnsigned
compares with the sign-aware compare, so (-7) / 2 short-circuits to
quotient 0 with remainder -7, whose magnitude is not smaller than the
magnitude of the divisor 2. -/
theorem claim_C2_division_remainder_bug :
    div (ofInt (-7)) (ofInt 2) = .ok zero ∧
    mod (ofInt (-7)) (ofInt 2) = .ok ⟨[7], true⟩ ∧
    ¬ (magVal (⟨[7], true⟩ : BigNum).digits < magVal (ofInt 2).digits) := by
  refine ⟨?_, ?_, by decide⟩ <;> decide

set_option maxRecDepth 100000 in
set_option maxHeartbeats 16000000 in
/-- C3: modPow does not reduce a negative base into [0, N): the initial
base = a % N keeps the dividend sign, so modPow(-2, 1, 5) returns the
negative value -2 instead of 3. -/
theorem claim_C3_modPow_negative_result :
    modPow (ofInt (-2)) (ofInt 1) (ofInt 5) = .ok ⟨[2], true⟩ ∧
    toInt (⟨[2], true⟩ : BigNum) < 0 := by
  exact ⟨by decide, by decide⟩

/-- C4: modPow raises InvalidModulus exactly on a zero modulus; with a
nonzero modulus a zero exponent returns 1, and a unit modulus with a
nonzero exponent returns 0.  (The exponent test runs first, so
exp = 0 with N = 1 yields 1, not 0 as the specification orders the
rules.) -/
theorem claim_C4_modPow_guards (a e n : BigNum) :
    (modPow a e n = .error .invalidModulus ↔ isZero n = true) ∧
    (isZero n = false → isZero e = true → modPow a e n = .ok one) ∧
    (isZero n = false → isZero e = false → isOne n = true → modPow a e n = .ok zero) :=
  modPow_guards a e n

theorem claim_C4_witness :
    isZero (ofInt 7) = false ∧ isZero (ofInt 0) = true ∧
    isZero (ofInt 1) = false ∧ isZero (ofInt 2) = false ∧ isOne (ofInt 1) = true ∧
    modPow (ofInt 3) (ofInt 0) (ofInt 7) = .ok one ∧
    modPow (ofInt 3) (ofInt 2) (ofInt 1) = .ok zero :=
  ⟨by decide, by decide, by decide, by decide, by decide,
    (claim_C4_modPow_guards (ofInt 3) (ofInt 0) (ofInt 7)).2.1 (by decide) (by decide),
    (claim_C4_modPow_guards (ofInt 3) (ofInt 2) (ofInt 1)).2.2 (by decide) (by decide)
      (by decide)⟩

set_option maxRecDepth 100000 in
set_option maxHeartbeats 16000000 in
theorem claim_C4_counterexample :
    modPow (ofInt 2) (ofInt 0) (ofInt 1) = .ok one ∧ one ≠ zero := by
  exact ⟨by decide, by decide⟩

set_option maxRecDepth 100000 in
set_option maxHeartbeats 16000000 in
/-- C5: the Montgomery path and the plain binary path disagree on a
negative base: Montgomery reduction works on raw digit vectors and drops
the sign, so modPowMontgomery(-2, 1, 5) returns +2 while
modPowBinary(-2, 1, 5) returns -2. -/
theorem claim_C5_montgomery_binary_disagree :
    modPowMontgomery (ofInt (-2)) (ofInt 1) (ofInt 5) = .ok ⟨[2], false⟩ ∧
    modPowBinary (ofInt (-2)) (ofInt 1) (ofInt 5) = .ok ⟨[2], true⟩ ∧
    modPowMontgomery (ofInt (-2)) (ofInt 1) (ofInt 5) ≠
      modPowBinary (ofInt (-2)) (ofInt 1) (ofInt 5) := by
  refine ⟨?_, ?_, ?_⟩ <;> decide

set_option maxRecDepth 100000 in
set_option maxHeartbeats 16000000 in
/-- C6: Karatsuba multiplication does not agree with schoolbook
multiplication on all word-bounded magnitudes: in the z1 subtraction
step the uint64 test bi + borrow of subtractUnsigned wraps to 0 at
bi = 2^64 - 1 with a pending borrow, the borrow chain is dropped, and
at the operands below the Karatsuba product exceeds the schoolbook
product by exactly 2^384. -/
theorem claim_C6_karatsuba_mismatch :
    multiplyKaratsuba ⟨[0, 0, 0, 0, 1, 1, 0, 1], false⟩
        ⟨[1, 0, 0, 0, 18446744073709551615], false⟩ ≠
      multiplySchoolbook ⟨[0, 0, 0, 0, 1, 1, 0, 1], false⟩
        ⟨[1, 0, 0, 0, 18446744073709551615], false⟩ ∧
    magVal (multiplyKaratsuba ⟨[0, 0, 0, 0, 1, 1, 0, 1], false⟩
        ⟨[1, 0, 0, 0, 18446744073709551615], false⟩).digits =
      magVal (multiplySchoolbook ⟨[0, 0, 0, 0, 1, 1, 0, 1], false⟩
        ⟨[1, 0, 0, 0, 18446744073709551615], false⟩).digits + 2 ^ 384 := by
  exact ⟨by decide, by decide⟩

set_option maxRecDepth 1000000 in
set_option maxHeartbeats 400000000 in
/-- C7: modInverse does not satisfy the inverse contract.  At
(a, n) = (1, 0) the gcd is 1, yet the call fails with DivisionByZero,
because the final reduction step divides by the zero modulus; it
neither raises NotInvertible nor returns an inverse.  And at the
canonical pair a = 2^128, n = 2^128 - 2^64 + 1 (positive modulus,
gcd 1) the dropped borrow of subtractUnsigned makes the first division
inside extendedGcd return a remainder larger than the divisor, and
modInverse returns a value v with (a * v) mod n ≠ 1. -/
theorem claim_C7_modInverse_gcd_bug :
    (modInverse (ofInt 1) (ofInt 0) = .error .divisionByZero ∧
      Int.gcd (toInt (ofInt 1)) (toInt (ofInt 0)) = 1 ∧
      modInverse (ofInt 1) (ofInt 0) ≠ .error .notInvertible) ∧
    (modInverse ⟨[0, 0, 1], false⟩ ⟨[1, 18446744073709551615], false⟩ =
        .ok ⟨[9223372036854775809, 18446744073709551614], false⟩ ∧
      Int.gcd (toInt (⟨[0, 0, 1], false⟩ : BigNum))
        (toInt (⟨[1, 18446744073709551615], false⟩ : BigNum)) = 1 ∧
      (toInt (⟨[0, 0, 1], false⟩ : BigNum) *
          toInt (⟨[9223372036854775809, 18446744073709551614], false⟩ : BigNum)) %
        toInt (⟨[1, 18446744073709551615], false⟩ : BigNum) ≠ 1) := by
  exact ⟨⟨by decide, by decide, by decide⟩, ⟨by decide, by decide, by decide⟩⟩

/-- C8: fromHexString succeeds exactly on the strings accepted by the
amended format: an optional leading minus, an optional lowercase 0x
prefix, then zero or more hex digits; every other string is rejected
with InvalidHex.  (The documented format differs: it requires at least
one digit and also allows an uppercase 0X prefix, which the source does
not strip.) -/
theorem claim_C8_hex_format (s : List Char) :
    ((∃ b, fromHexString s = .ok b) ↔ acceptedHex s = true) ∧
    (acceptedHex s = false → fromHexString s = .error .invalidHex) :=
  fromHexString_spec s

theorem claim_C8_witness :
    acceptedHex ['1', 'f'] = true ∧ acceptedHex ['z'] = false ∧
    (∃ b, fromHexString ['1', 'f'] = .ok b) ∧
    fromHexString ['z'] = .error .invalidHex :=
  ⟨by decide, by decide, (claim_C8_hex_format ['1', 'f']).1.mpr (by decide),
    (claim_C8_hex_format ['z']).2 (by decide)⟩

theorem claim_C8_counterexample :
    fromHexString ['0', 'X', '1'] = .error .invalidHex ∧
    fromHexString [] = .ok (ofInt 0) ∧
    fromHexString ['0', 'x'] = .ok (ofInt 0) ∧
    fromHexString ['-'] = .ok (ofInt 0) := by
  refine ⟨?_, ?_, ?_, ?_⟩ <;> decide

/-- C9: for a canonical BigNum, toInt64 returns the represented value
exactly on the interval from -2^63 to 2^63 - 1 (the magnitude 2^63 with
negative sign maps to the minimum int64) and fails with OverflowToInt64
outside it. -/
theorem claim_C9_toInt64_range (a : BigNum) (ha : Canon a) :
    (-(2 ^ 63) ≤ toInt a → toInt a < 2 ^ 63 → toInt64 a = .ok (toInt a)) ∧
    ((toInt a < -(2 ^ 63) ∨ 2 ^ 63 ≤ toInt a) → toInt64 a = .error .overflowToInt64) :=
  toInt64_spec a ha

theorem claim_C9_witness :
    Canon (⟨[9223372036854775808], true⟩ : BigNum) ∧
    -(2 ^ 63) ≤ toInt (⟨[9223372036854775808], true⟩ : BigNum) ∧
    toInt (⟨[9223372036854775808], true⟩ : BigNum) < 2 ^ 63 ∧
    toInt64 (⟨[9223372036854775808], true⟩ : BigNum) =
      .ok (toInt (⟨[9223372036854775808], true⟩ : BigNum)) :=
  ⟨by decide, by decide, by decide,
    (claim_C9_toInt64_range ⟨[9223372036854775808], true⟩ (by decide)).1
      (by decide) (by decide)⟩

set_option maxRecDepth 100000 in
set_option maxHeartbeats 4000000 in
/-- C10: the byte codec maps zero to the empty byte sequence and back:
toByteArray of canonical zero is [], fromByteArray of [] is canonical
zero, and the round trip at zero is the identity. -/
theorem claim_C10_byte_roundtrip_zero :
    toByteArray zero = [] ∧ fromByteArray [] = zero ∧
    fromByteArray (toByteArray zero) = zero := by
  refine ⟨?_, ?_, ?_⟩ <;> decide

end BigNum
